import Mathlib

/-
Shallow embedding of the quote-extraction normalization pipeline of
src/email_extractor/llm_extract_data.py (repository parrotTrips/louro-jose).
Python strings are modelled as Lean String (a list of unicode scalar values,
matching Python str codepoint-wise), Python floats as rationals (the claims
under study only concern parse success and decimal values, never rounding),
Python dicts as insertion-ordered association lists, and Python None/bool/
int/float/str/list/dict values as the inductive type PyVal.
-/

/-- Python whitespace predicate (str.isspace and the regex class \s agree on
this set for the Unicode range used here). -/
def pyIsSpace (c : Char) : Bool :=
  c.toNat = 32 || c.toNat = 9 || c.toNat = 10 || c.toNat = 13 || c.toNat = 11 ||
  c.toNat = 12 || c.toNat = 28 || c.toNat = 29 || c.toNat = 30 || c.toNat = 31 ||
  c.toNat = 133 || c.toNat = 160 ||
  (8192 ≤ c.toNat && c.toNat ≤ 8202) || c.toNat = 8232 || c.toNat = 8233 ||
  c.toNat = 8239 || c.toNat = 8287 || c.toNat = 12288 || c.toNat = 5760

/-- Strip characters satisfying p from both ends (Python str.strip semantics). -/
def stripBothList (p : Char → Bool) (cs : List Char) : List Char :=
  ((cs.dropWhile p).reverse.dropWhile p).reverse

/-- Python str.strip() with no arguments (whitespace on both ends). -/
def pyStrip (s : String) : String :=
  String.mk (stripBothList pyIsSpace s.data)

/-- Python str.strip(chars) with an explicit set of characters. -/
def pyStripSet (set : List Char) (s : String) : String :=
  String.mk (stripBothList (fun c => set.contains c) s.data)

/-- Python str.rstrip() (whitespace on the right end only). -/
def pyRstrip (s : String) : String :=
  String.mk ((s.data.reverse.dropWhile pyIsSpace).reverse)

/-- Python str.lower() restricted to ASCII and Latin-1 letters (the only
letters the source data and the source string constants use). -/
def pyLowerChar (c : Char) : Char :=
  if 'A' ≤ c && c ≤ 'Z' then Char.ofNat (c.toNat + 32)
  else if 0xc0 ≤ c.toNat && c.toNat ≤ 0xde && c.toNat ≠ 0xd7 then Char.ofNat (c.toNat + 32)
  else c

/-- Python str.lower() on a whole string. -/
def pyLower (s : String) : String :=
  String.mk (s.data.map pyLowerChar)

/-- replace every occurrence of character a by character b (str.replace on
one-character arguments). -/
def pyReplaceChar (s : String) (a b : Char) : String :=
  String.mk (s.data.map (fun c => if c = a then b else c))

/-- delete every occurrence of character a (str.replace(a, "") on a
one-character argument). -/
def pyRemoveChar (s : String) (a : Char) : String :=
  String.mk (s.data.filter (fun c => c ≠ a))

/-- Does the character list h start with the list n? -/
def startsWithList : List Char → List Char → Bool
  | _, [] => true
  | [], _ :: _ => false
  | c :: t, d :: u => c = d && startsWithList t u

/-- Python substring containment (needle in haystack); the empty needle is
contained in everything, as in Python. -/
def containsList : List Char → List Char → Bool
  | [], n => n.isEmpty
  | c :: t, n => startsWithList (c :: t) n || containsList t n

/-- Python substring containment on String. -/
def pyContains (hay needle : String) : Bool :=
  containsList hay.data needle.data

/-- Python str.startswith for a single needle. -/
def pyStartsWith (s pre : String) : Bool :=
  startsWithList s.data pre.data

/-- Value of a list of decimal digit characters. -/
def digitsToNat (ds : List Char) : Nat :=
  ds.foldl (fun n c => 10 * n + (c.toNat - 48)) 0

/-- The rational value of a decimal literal with sign, integer digits,
fraction digits and a decimal exponent: sign times the digits over ten to
the fraction length, times ten to the exponent (built with one mkRat so the
value computes inside the kernel). -/
def decimalValue (neg : Bool) (intDs fracDs : List Char) (exp : Int) : ℚ :=
  let m : Int := (digitsToNat (intDs ++ fracDs) : Int)
  let m : Int := if neg then -m else m
  let e : Int := exp - (fracDs.length : Int)
  if 0 ≤ e then mkRat (m * (10 : Int) ^ e.toNat) 1 else mkRat m ((10 : Nat) ^ (-e).toNat)

/-- Exponent part of the Python float literal grammar (none for a malformed
tail).  Underscored literals and the textual inf/infinity/nan forms accepted
by CPython are outside this model: no claim exercises them, and every branch
that consumes this parser treats parse failure the same way. -/
def pyFloatExpVal (rest : List Char) : Option Int :=
  match rest with
  | [] => some 0
  | e :: r =>
    if e = 'e' || e = 'E' then
      let sgn : Int × List Char :=
        match r with
        | '+' :: t => (1, t)
        | '-' :: t => (-1, t)
        | t => (1, t)
      let ds := sgn.2.takeWhile Char.isDigit
      let r3 := sgn.2.dropWhile Char.isDigit
      if ds.isEmpty || !r3.isEmpty then none
      else some (sgn.1 * (digitsToNat ds : Int))
    else none

/-- Unsigned part of the Python float literal grammar:
digits [. digits] | . digits, followed by an optional exponent. -/
def pyFloatMag (neg : Bool) (cs : List Char) : Option ℚ :=
  let intPart := cs.takeWhile Char.isDigit
  let rest1 := cs.dropWhile Char.isDigit
  match rest1 with
  | '.' :: r2 =>
    let fracPart := r2.takeWhile Char.isDigit
    let rest2 := r2.dropWhile Char.isDigit
    if intPart.isEmpty && fracPart.isEmpty then none
    else (pyFloatExpVal rest2).map (fun e => decimalValue neg intPart fracPart e)
  | _ =>
    if intPart.isEmpty then none
    else (pyFloatExpVal rest1).map (fun e => decimalValue neg intPart [] e)

/-- Python float(s) on a string: strip whitespace, optional sign, numeric
literal; None on parse failure (where CPython raises ValueError). -/
def pyFloat? (s : String) : Option ℚ :=
  let cs := stripBothList pyIsSpace s.data
  match cs with
  | '+' :: t => pyFloatMag false t
  | '-' :: t => pyFloatMag true t
  | t => pyFloatMag false t

/-- Python values as produced by json.loads and manipulated by the pipeline. -/
inductive PyVal where
  | pnone : PyVal
  | pbool : Bool → PyVal
  | pint : Int → PyVal
  | pfloat : ℚ → PyVal
  | pstr : String → PyVal
  | plist : List PyVal → PyVal
  | pdict : List (String × PyVal) → PyVal
deriving Repr

/-- A Python dict: insertion-ordered association list with unique keys in
every state a Python run can reach; the operations below follow CPython dict
semantics (first-occurrence lookup, in-place update, append on new key). -/
abbrev PyDict := List (String × PyVal)

/-- d[k] lookup returning the first binding. -/
def dictGet? (d : PyDict) (k : String) : Option PyVal :=
  match d with
  | [] => none
  | (k1, v1) :: rest => if k1 = k then some v1 else dictGet? rest k

/-- k in d. -/
def dictContains (d : PyDict) (k : String) : Bool :=
  (dictGet? d k).isSome

/-- d[k] = v: update in place if present, else append at the end. -/
def dictSet (d : PyDict) (k : String) (v : PyVal) : PyDict :=
  match d with
  | [] => [(k, v)]
  | (k1, v1) :: rest => if k1 = k then (k, v) :: rest else (k1, v1) :: dictSet rest k v

/-- d.pop(k): remove the first binding of k. -/
def dictErase (d : PyDict) (k : String) : PyDict :=
  match d with
  | [] => []
  | (k1, v1) :: rest => if k1 = k then rest else (k1, v1) :: dictErase rest k

/-- dict merge as in the Python expression with double-star unpacking of a
followed by double-star unpacking of b (later keys win, order of a kept). -/
def dictMerge (a b : PyDict) : PyDict :=
  b.foldl (fun acc kv => dictSet acc kv.1 kv.2) a

/-- Smallest k with den dividing 10 to the k, if any below 41 (enough for
every decimal literal the pipeline can parse). -/
def pow10Exp (den : Nat) : Option Nat :=
  (List.range 41).find? (fun k => 10 ^ k % den = 0)

/-- Decimal rendering of a nonnegative rational whose denominator divides a
power of ten; other denominators (unreachable for values parsed from decimal
literals) fall back to a fraction rendering.  Python repr of a float prints
the shortest decimal that round-trips; for the decimal-valued floats this
pipeline produces the two renderings agree. -/
def floatStrNN (q : ℚ) : String :=
  if q.den = 1 then toString q.num ++ ".0"
  else
    match pow10Exp q.den with
    | some k =>
      let scaled := q.num.natAbs * (10 ^ k / q.den)
      let s0 := toString scaled
      let s := String.mk (List.replicate (k + 1 - s0.length) '0') ++ s0
      let m := s.length - k
      String.mk (s.data.take m) ++ "." ++ String.mk (s.data.drop m)
    | none => toString q.num ++ "/" ++ toString q.den

/-- Python str of a float (sign plus decimal rendering). -/
def floatStr (q : ℚ) : String :=
  if q < 0 then "-" ++ floatStrNN (-q) else floatStrNN q

/-- Python repr of a value. -/
def pyRepr : PyVal → String
  | .pnone => "None"
  | .pbool b => if b then "True" else "False"
  | .pint n => toString n
  | .pfloat q => floatStr q
  | .pstr s => "\x27" ++ s ++ "\x27"
  | .plist xs =>
    "[" ++ String.intercalate ", " (xs.attach.map (fun x => pyRepr x.1)) ++ "]"
  | .pdict es =>
    "\x7b" ++
      String.intercalate ", "
        (es.attach.map (fun kv => "\x27" ++ kv.1.1 ++ "\x27: " ++ pyRepr kv.1.2)) ++
    "\x7d"
termination_by v => sizeOf v
decreasing_by
  · have h := List.sizeOf_lt_of_mem x.2
    simp only [PyVal.plist.sizeOf_spec]
    omega
  · obtain ⟨⟨k, v⟩, hm⟩ := kv
    have h := List.sizeOf_lt_of_mem hm
    simp only [Prod.mk.sizeOf_spec] at h
    simp only [PyVal.pdict.sizeOf_spec]
    omega

/-- Python str of a value: identity on strings, repr-like elsewhere. -/
def pyStr (v : PyVal) : String :=
  match v with
  | .pstr s => s
  | v => pyRepr v

/- === coerce_price (llm_extract_data.py lines 217-233) === -/

/-- coerce_price: None to empty string, numbers (bool included, as a Python
int subclass) to float, strings through the separator heuristic then float
parsing, parse failure to empty string. -/
def coerce_price (v : PyVal) : PyVal :=
  match v with
  | .pnone => .pstr ""
  | .pbool b => .pfloat (if b then 1 else 0)
  | .pint n => .pfloat (n : ℚ)
  | .pfloat q => .pfloat q
  | v =>
    let s := pyStrip (pyStr v)
    if s = "" then .pstr ""
    else
      let s2 :=
        if s.data.count ',' = 1 ∧ s.data.count '.' > 1 then
          pyReplaceChar (pyRemoveChar s '.') ',' '.'
        else
          pyReplaceChar s ',' '.'
      match pyFloat? s2 with
      | some q => .pfloat q
      | none => .pstr ""

/-- Price normalization as the amended claim words it (refinement model):
on the stripped string, exactly one comma together with more than one period
means periods are thousands separators (dropped) and the comma becomes the
decimal point; otherwise every comma is replaced by a period (it is not
deleted); a string that then fails to parse as a float gives the empty
string. -/
def price_spec (s : String) : PyVal :=
  let t := pyStrip s
  if t = "" then .pstr ""
  else if t.data.count ',' = 1 ∧ t.data.count '.' > 1 then
    match pyFloat? (pyReplaceChar (pyRemoveChar t '.') ',' '.') with
    | some q => .pfloat q
    | none => .pstr ""
  else
    match pyFloat? (pyReplaceChar t ',' '.') with
    | some q => .pfloat q
    | none => .pstr ""

/- === complete_check (llm_extract_data.py lines 249-260) === -/

/-- The per-field missing test of complete_check: key absent, value None, or
a string that strips to empty. -/
def field_missing (record : PyDict) (k : String) : Bool :=
  match dictGet? record k with
  | none => true
  | some .pnone => true
  | some (.pstr s) => pyStrip s = ""
  | some _ => false

/-- complete_check: collect the missing required fields in order and report
completeness as their absence. -/
def complete_check (record : PyDict) (required_fields : List String) :
    Bool × List String :=
  let missing := required_fields.filter (fun k => field_missing record k)
  (missing.isEmpty, missing)

/-- HEADER_FIELDS: the canonical ordered field list (llm_extract_data.py
lines 47-67). -/
def HEADER_FIELDS : List String :=
  [ "Timestamp",
    "Fornecedor",
    "Assunto",
    "Nome do hotel",
    "Cidade",
    "Check-in",
    "Check-out",
    "Número de quartos",
    "Descrição dos Quartos",
    "Categoria do quarto",
    "Preço (num)",
    "Configuração do quarto",
    "Tarifa NET ou comissionada?",
    "Taxa? Ex.: 5% de ISS",
    "Serviços incluso? Explicação: existem hotéis que consideram a tarifa de serviço já incluso e outros não.",
    "Política de pagamento",
    "Política de cancelamento",
    "Email do fornecedor",
    "Email do remetente (top-level)" ]

/- === Email heuristics (llm_extract_data.py lines 177-214) === -/

/-- Python str.splitlines boundary characters. -/
def pyIsLineBreak (c : Char) : Bool :=
  c.toNat = 10 || c.toNat = 13 || c.toNat = 11 || c.toNat = 12 ||
  c.toNat = 28 || c.toNat = 29 || c.toNat = 30 || c.toNat = 133 ||
  c.toNat = 8232 || c.toNat = 8233

/-- Worker for splitlines: acc holds the current line reversed. -/
def splitlinesCore : List Char → List Char → List String
  | [], acc => if acc.isEmpty then [] else [String.mk acc.reverse]
  | '\r' :: '\n' :: rest, acc => String.mk acc.reverse :: splitlinesCore rest []
  | c :: rest, acc =>
    if pyIsLineBreak c then String.mk acc.reverse :: splitlinesCore rest []
    else splitlinesCore rest (c :: acc)

/-- Python str.splitlines() (keepends false). -/
def pySplitlines (s : String) : List String :=
  splitlinesCore s.data []

/-- Character class of the local part of EMAIL_REGEX. -/
def isLocalChar (c : Char) : Bool :=
  ((65 ≤ c.toNat && c.toNat ≤ 90) || (97 ≤ c.toNat && c.toNat ≤ 122) ||
   (48 ≤ c.toNat && c.toNat ≤ 57) ||
   c.toNat = 46 || c.toNat = 95 || c.toNat = 37 || c.toNat = 43 || c.toNat = 45)

/-- Character class of the domain part of EMAIL_REGEX. -/
def isDomainChar (c : Char) : Bool :=
  ((65 ≤ c.toNat && c.toNat ≤ 90) || (97 ≤ c.toNat && c.toNat ≤ 122) ||
   (48 ≤ c.toNat && c.toNat ≤ 57) || c.toNat = 46 || c.toNat = 45)

/-- ASCII letter. -/
def isAsciiAlpha (c : Char) : Bool :=
  (65 ≤ c.toNat && c.toNat ≤ 90) || (97 ≤ c.toNat && c.toNat ≤ 122)

/-- Within the maximal domain-character run after the at sign, the regex
backtracks the greedy run so that the last dot followed by at least two
letters ends the match: index of that dot (at least one domain character
must precede it). -/
def lastGoodDot (run : List Char) : Option Nat :=
  (List.range run.length).reverse.find?
    (fun i =>
      decide (1 ≤ i) && decide (run.getD i ' ' = '.') &&
      decide (2 ≤ ((run.drop (i + 1)).takeWhile isAsciiAlpha).length))

/-- One match attempt of EMAIL_REGEX at the start of cs: returns the matched
text and the rest of the input after the match. -/
def matchEmailAt (cs : List Char) : Option (List Char × List Char) :=
  let loc := cs.takeWhile isLocalChar
  let r1 := cs.dropWhile isLocalChar
  if loc.isEmpty then none
  else
    match r1 with
    | '@' :: r2 =>
      let run := r2.takeWhile isDomainChar
      let r3 := r2.dropWhile isDomainChar
      match lastGoodDot run with
      | none => none
      | some i =>
        let tld := (run.drop (i + 1)).takeWhile isAsciiAlpha
        some (loc ++ '@' :: (run.take i ++ '.' :: tld), run.drop (i + 1 + tld.length) ++ r3)
    | _ => none

/-- EMAIL_REGEX.findall: leftmost non-overlapping matches, scanning left to
right (fuel bounds the scan by the input length; every step consumes at
least one character). -/
def emailFindallCore : Nat → List Char → List String
  | 0, _ => []
  | _, [] => []
  | fuel + 1, c :: rest =>
    match matchEmailAt (c :: rest) with
    | some (m, r) => String.mk m :: emailFindallCore fuel r
    | none => emailFindallCore fuel rest

/-- EMAIL_REGEX.findall on a string. -/
def emailFindall (s : String) : List String :=
  emailFindallCore (s.data.length + 1) s.data

/-- extract_top_from_email: scan the first 3000 characters; first email on a
from-prefixed line, else first email anywhere in that head, else empty. -/
def extract_top_from_email (body_text : String) : String :=
  let head := String.mk (body_text.data.take 3000)
  let fromHits :=
    (pySplitlines head).filterMap
      (fun line =>
        if pyStartsWith (pyLower (pyStrip line)) "from:" then
          (emailFindall line).head?.map pyStrip
        else none)
  match fromHits.head? with
  | some em => em
  | none =>
    match (emailFindall head).head? with
    | some em => pyStrip em
    | none => ""

/-- The fixed ignore set of extract_supplier_email_heuristic. -/
def ignore_domains : List String :=
  ["parrottrips.com", "facebook.com", "instagram.com", "linkedin.com",
   "gmail.com", "googlemail.com"]

/-- em.split at-sign, last component, lowercased: the domain used for the
ignore test. -/
def pyDomainOf (em : String) : String :=
  pyLower (String.mk ((em.data.reverse.takeWhile (fun c => c ≠ '@')).reverse))

/-- Does the line count as a priority (header-like) line? -/
def isPriorityLine (line : String) : Bool :=
  pyStartsWith (pyLower (pyStrip line)) "from:" ||
  pyStartsWith (pyLower (pyStrip line)) "to:"

/-- The two candidate buckets of extract_supplier_email_heuristic, built in
line order then findall order, skipping ignored domains. -/
def supplier_buckets (body_text : String) : List String × List String :=
  (pySplitlines body_text).foldl
    (fun acc line =>
      (emailFindall line).foldl
        (fun acc2 em =>
          if ignore_domains.contains (pyDomainOf em) then acc2
          else if isPriorityLine line then (acc2.1 ++ [em], acc2.2)
          else (acc2.1, acc2.2 ++ [em]))
        acc)
    ([], [])

/-- extract_supplier_email_heuristic: first priority-bucket address, else
first regular-bucket address, else empty. -/
def extract_supplier_email_heuristic (body_text : String) : String :=
  let b := supplier_buckets body_text
  match b.1 with
  | em :: _ => em
  | [] =>
    match b.2 with
    | em :: _ => em
    | [] => ""

/- === Key aliases (llm_extract_data.py lines 339-354) === -/

/-- OLD_TO_NEW_KEYS in source order. -/
def OLD_TO_NEW_KEYS : List (String × String) :=
  [ ("Tipo de quarto (normalizado)", "Categoria do quarto"),
    ("Qual configuração do quarto (twin, double)", "Configuração do quarto"),
    ("Descrição de Valores", "Descrição dos Quartos"),
    ("Descrição de Quartos", "Descrição dos Quartos"),
    ("Descrição do Quarto", "Descrição dos Quartos") ]

/-- One alias rule: if the old key is present and the new key absent, move
the value (pop the old binding, append under the new key). -/
def aliasStep (d : PyDict) (rule : String × String) : PyDict :=
  match dictGet? d rule.1 with
  | none => d
  | some v => if dictContains d rule.2 then d else dictErase d rule.1 ++ [(rule.2, v)]

/-- normalize_key_aliases: apply every alias rule in source order (the empty
dict is returned unchanged, as by the falsiness guard in the source). -/
def normalize_key_aliases (d : PyDict) : PyDict :=
  if d.isEmpty then d else OLD_TO_NEW_KEYS.foldl aliasStep d

/- === LLM response parsing (llm_extract_data.py lines 236-246, 314-334) === -/

/-- Python str.find of a character (none for -1). -/
def strFindChar? (s : String) (c : Char) : Option Nat :=
  s.data.findIdx? (fun d => d = c)

/-- Python str.rfind of a character (none for -1). -/
def strRfindChar? (s : String) (c : Char) : Option Nat :=
  (s.data.reverse.findIdx? (fun d => d = c)).map (fun i => s.data.length - 1 - i)

/-- Python slice s[a:b] for 0 ≤ a ≤ b. -/
def pySlice (s : String) (a b : Nat) : String :=
  String.mk ((s.data.drop a).take (b - a))

/-- The object fallback of sanitize_json_only: outermost brace span if any,
else the input unchanged. -/
def sanitizeObjFallback (s : String) : String :=
  match strFindChar? s '\x7b', strRfindChar? s '\x7d' with
  | some so, some eo => if so ≤ eo then pySlice s so (eo + 1) else s
  | _, _ => s

/-- sanitize_json_only: outermost bracket span, else outermost brace span,
else the input unchanged. -/
def sanitize_json_only (s : String) : String :=
  match strFindChar? s '[', strRfindChar? s ']' with
  | some st, some en => if en < st then sanitizeObjFallback s else pySlice s st (en + 1)
  | _, _ => sanitizeObjFallback s

/-- The leading-fence alternative of the fence-stripping regex: a backtick
fence at the very start, an optional case-insensitive json tag, trailing
whitespace. -/
def stripLeadFence (s : String) : String :=
  if pyStartsWith s "```" then
    let r1 := s.data.drop 3
    let r2 := if pyLower (String.mk (r1.take 4)) = "json" then r1.drop 4 else r1
    String.mk (r2.dropWhile pyIsSpace)
  else s

/-- The trailing-fence alternative: whitespace then a backtick fence ending
at the end of the string, or just before one final newline (the dollar
anchor of the Python pattern matches at both positions). -/
def stripTrailFence (s : String) : String :=
  let cs := s.data.reverse
  if startsWithList cs ['`', '`', '`'] then
    String.mk ((cs.drop 3).dropWhile pyIsSpace).reverse
  else if startsWithList cs ['\n', '`', '`', '`'] then
    String.mk ('\n' :: ((cs.drop 4).dropWhile pyIsSpace)).reverse
  else s

/-- Both substitutions of the fence-stripping re.sub. -/
def stripFences (s : String) : String :=
  stripTrailFence (stripLeadFence s)

/-- JSON whitespace (the only whitespace the json module skips). -/
def jsonIsWs (c : Char) : Bool :=
  c = ' ' || c = '\t' || c = '\n' || c = '\r'

/-- Skip JSON whitespace. -/
def jsonSkipWs (cs : List Char) : List Char :=
  cs.dropWhile jsonIsWs

/-- Hex digit value. -/
def hexVal? (c : Char) : Option Nat :=
  if '0' ≤ c && c ≤ '9' then some (c.toNat - 48)
  else if 'a' ≤ c && c ≤ 'f' then some (c.toNat - 87)
  else if 'A' ≤ c && c ≤ 'F' then some (c.toNat - 55)
  else none

/-- Body of a JSON string after the opening quote: decoded characters plus
the rest after the closing quote.  Surrogate-pair recombination is outside
the model (no claim exercises it). -/
def jsonParseStrBody : Nat → List Char → Option (List Char × List Char)
  | 0, _ => none
  | _, [] => none
  | fuel + 1, c :: rest =>
    if c = '"' then some ([], rest)
    else if c = '\\' then
      match rest with
      | [] => none
      | e :: r2 =>
        let dec : Option (Char × List Char) :=
          if e = '"' then some ('"', r2)
          else if e = '\\' then some ('\\', r2)
          else if e = '/' then some ('/', r2)
          else if e = 'b' then some ('\x08', r2)
          else if e = 'f' then some ('\x0c', r2)
          else if e = 'n' then some ('\n', r2)
          else if e = 'r' then some ('\r', r2)
          else if e = 't' then some ('\t', r2)
          else if e = 'u' then
            match r2 with
            | h1 :: h2 :: h3 :: h4 :: r3 =>
              match hexVal? h1, hexVal? h2, hexVal? h3, hexVal? h4 with
              | some a, some b, some cc, some d =>
                some (Char.ofNat (((a * 16 + b) * 16 + cc) * 16 + d), r3)
              | _, _, _, _ => none
            | _ => none
          else none
        match dec with
        | some (ch, r3) =>
          (jsonParseStrBody fuel r3).map (fun p => (ch :: p.1, p.2))
        | none => none
    else if c.toNat < 0x20 then none
    else (jsonParseStrBody fuel rest).map (fun p => (c :: p.1, p.2))

/-- Optional exponent of a JSON number; outer none means a malformed
exponent (an e with no digits). -/
def jsonExpPart (cs : List Char) : Option (Option Int × List Char) :=
  match cs with
  | c :: r =>
    if c = 'e' || c = 'E' then
      let sg : Int × List Char :=
        match r with
        | '+' :: t => (1, t)
        | '-' :: t => (-1, t)
        | t => (1, t)
      let ds := sg.2.takeWhile Char.isDigit
      if ds.isEmpty then none
      else some (some (sg.1 * (digitsToNat ds : Int)), sg.2.dropWhile Char.isDigit)
    else some (none, cs)
  | [] => some (none, [])

/-- A JSON number: json.loads yields a Python int when there is neither a
fraction nor an exponent, and a float otherwise. -/
def jsonParseNumber (cs : List Char) : Option (PyVal × List Char) :=
  let sgn : Bool × List Char :=
    match cs with
    | '-' :: t => (true, t)
    | t => (false, t)
  let ip := sgn.2.takeWhile Char.isDigit
  let r2 := sgn.2.dropWhile Char.isDigit
  if ip.isEmpty then none
  else if 1 < ip.length ∧ ip.headD '0' = '0' then none
  else
    let iv : Int := (if sgn.1 then -1 else 1) * (digitsToNat ip : Int)
    match r2 with
    | '.' :: r3 =>
      let fp := r3.takeWhile Char.isDigit
      let r4 := r3.dropWhile Char.isDigit
      if fp.isEmpty then none
      else
        match jsonExpPart r4 with
        | none => none
        | some (eo, r5) => some (.pfloat (decimalValue sgn.1 ip fp (eo.getD 0)), r5)
    | _ =>
      match jsonExpPart r2 with
      | none => none
      | some (none, r5) => some (.pint iv, r5)
      | some (some e, r5) => some (.pfloat (decimalValue sgn.1 ip [] e), r5)

mutual

/-- A JSON value (strict json.loads grammar; the NaN and Infinity literals
CPython additionally accepts are outside the model). -/
def jsonParseVal : Nat → List Char → Option (PyVal × List Char)
  | 0, _ => none
  | fuel + 1, cs =>
    match jsonSkipWs cs with
    | [] => none
    | '\x7b' :: rest => jsonParseObj fuel (jsonSkipWs rest)
    | '[' :: rest => jsonParseArr fuel (jsonSkipWs rest)
    | '"' :: rest => (jsonParseStrBody fuel rest).map (fun p => (.pstr (String.mk p.1), p.2))
    | 't' :: rest =>
      if startsWithList rest ['r', 'u', 'e'] then some (.pbool true, rest.drop 3) else none
    | 'f' :: rest =>
      if startsWithList rest ['a', 'l', 's', 'e'] then some (.pbool false, rest.drop 4) else none
    | 'n' :: rest =>
      if startsWithList rest ['u', 'l', 'l'] then some (.pnone, rest.drop 3) else none
    | cs2 => jsonParseNumber cs2

/-- Array items after the opening bracket (whitespace already skipped),
empty-array case included. -/
def jsonParseArr : Nat → List Char → Option (PyVal × List Char)
  | 0, _ => none
  | fuel + 1, cs =>
    match cs with
    | ']' :: r => some (.plist [], r)
    | _ => (jsonParseArrItems fuel cs).map (fun p => (.plist p.1, p.2))

/-- One-or-more comma-separated array items. -/
def jsonParseArrItems : Nat → List Char → Option (List PyVal × List Char)
  | 0, _ => none
  | fuel + 1, cs =>
    match jsonParseVal fuel cs with
    | none => none
    | some (v, r) =>
      match jsonSkipWs r with
      | ',' :: r2 => (jsonParseArrItems fuel r2).map (fun p => (v :: p.1, p.2))
      | ']' :: r2 => some ([v], r2)
      | _ => none

/-- Object members after the opening brace (whitespace already skipped),
empty-object case included. -/
def jsonParseObj : Nat → List Char → Option (PyVal × List Char)
  | 0, _ => none
  | fuel + 1, cs =>
    match cs with
    | '\x7d' :: r => some (.pdict [], r)
    | _ => (jsonParseObjItems fuel cs).map (fun p => (.pdict p.1, p.2))

/-- One-or-more comma-separated object members (string key, colon, value);
duplicate keys resolve later-wins as in CPython. -/
def jsonParseObjItems : Nat → List Char → Option (PyDict × List Char)
  | 0, _ => none
  | fuel + 1, cs =>
    match jsonSkipWs cs with
    | '"' :: r =>
      match jsonParseStrBody fuel r with
      | none => none
      | some (kcs, r2) =>
        match jsonSkipWs r2 with
        | ':' :: r3 =>
          match jsonParseVal fuel r3 with
          | none => none
          | some (v, r4) =>
            match jsonSkipWs r4 with
            | ',' :: r5 =>
              (jsonParseObjItems fuel r5).map
                (fun p =>
                  (match dictGet? p.1 (String.mk kcs) with
                   | some v2 => (String.mk kcs, v2) :: dictErase p.1 (String.mk kcs)
                   | none => (String.mk kcs, v) :: p.1,
                   p.2))
            | '\x7d' :: r5 => some ([(String.mk kcs, v)], r5)
            | _ => none
        | _ => none
    | _ => none

end

/-- json.loads: parse one value and require only whitespace after it. -/
def jsonLoads (s : String) : Option PyVal :=
  match jsonParseVal (4 * s.data.length + 8) s.data with
  | some (v, rest) => if (jsonSkipWs rest).isEmpty then some v else none
  | none => none

/-- Keep only the dict-shaped elements of a list. -/
def dictsOf (xs : List PyVal) : List PyDict :=
  xs.filterMap (fun x =>
    match x with
    | .pdict d => some d
    | _ => none)

/-- The cleaned response text parse_llm_to_list feeds to json.loads:
sanitize to the outermost JSON span, strip the string, strip fences. -/
def llmCleaned (text : String) : String :=
  stripFences (pyStrip (sanitize_json_only text))

/-- parse_llm_to_list: parse the cleaned text, then normalize the shape to a
list of dict-shaped records; a JSON parse failure raises (modelled as the
error branch). -/
def parse_llm_to_list (text : String) : Except String (List PyDict) :=
  match jsonLoads (llmCleaned text) with
  | none => Except.error "JSON parse fail"
  | some (.plist xs) => Except.ok (dictsOf xs)
  | some (.pdict d) =>
    match dictGet? d "Cotações" with
    | some (.plist xs) => Except.ok (dictsOf xs)
    | _ => Except.ok [d]
  | some _ => Except.ok []

/- === strip_price_tokens (llm_extract_data.py lines 359-380) === -/

/-- Word character for the regex boundary \b: ASCII alphanumerics and
underscore, Latin-1 letters, and the Latin-1 letterlike/numeric signs
(ordinal indicators, superscript digits, micro sign).  Letters beyond
Latin-1 do not occur in the data or the constants of the source. -/
def isWordChar (c : Char) : Bool :=
  c.isAlphanum || c.toNat = 95 ||
  (192 ≤ c.toNat && c.toNat ≤ 255 && c.toNat ≠ 215 && c.toNat ≠ 247) ||
  c.toNat = 170 || c.toNat = 186 || c.toNat = 178 || c.toNat = 179 ||
  c.toNat = 185 || c.toNat = 181

/-- Character class of the run after a currency sign: digits, periods,
commas. -/
def isPriceBody (c : Char) : Bool :=
  c.isDigit || c.toNat = 46 || c.toNat = 44

/-- After an already-matched currency sign of length base: one optional
whitespace (greedy, so tried first), a mandatory digit, then a greedy run of
digits/periods/commas. -/
def afterCurrency (base : Nat) (ds : List Char) : Option Nat :=
  match ds with
  | [] => none
  | c :: rest =>
    if pyIsSpace c then
      match rest with
      | d :: r2 => if d.isDigit then some (base + 2 + (r2.takeWhile isPriceBody).length) else none
      | [] => none
    else if c.isDigit then some (base + 1 + (rest.takeWhile isPriceBody).length)
    else none

/-- Greedy count of consecutive period-plus-three-digit groups. -/
def dotGroups : List Char → Nat
  | '.' :: a :: b :: c :: rest =>
    if a.isDigit && b.isDigit && c.isDigit then 1 + dotGroups rest else 0
  | _ => 0

/-- Is the boundary satisfied between a digit just matched and the start of
r (end of input counts as a boundary)? -/
def boundaryAfterDigit (r : List Char) : Bool :=
  match r.head? with
  | none => true
  | some c => !isWordChar c

/-- The optional comma-decimals tail of the bare-number alternative plus its
closing boundary; pos is the length matched so far, restg the input there.
A greedy comma part whose closing boundary fails backtracks to the
without-comma reading, whose boundary (digit before a comma) always holds. -/
def commaTail (restg : List Char) (pos : Nat) : Option Nat :=
  match restg with
  | ',' :: r2 =>
    let m := (r2.takeWhile Char.isDigit).length
    if 1 ≤ m then
      if boundaryAfterDigit (r2.drop m) then some (pos + 1 + m) else some pos
    else some pos
  | r => if boundaryAfterDigit r then some pos else none

/-- Backtracking over the number of thousands groups, largest first; n is
the count of leading digits taken. -/
def alt3Go (cs : List Char) (n : Nat) : Nat → Option Nat
  | 0 => commaTail (cs.drop n) n
  | g + 1 =>
    match commaTail (cs.drop (n + 4 * (g + 1))) (n + 4 * (g + 1)) with
    | some L => some L
    | none => alt3Go cs n g

/-- The bare-number alternative of _PRICE_TOKEN_RE: a boundary, one to three
digits (greedy with backtracking), thousands groups, optional comma
decimals, a closing boundary. -/
def alt3 (prevWord : Bool) (cs : List Char) : Option Nat :=
  if prevWord then none
  else
    let d := (cs.takeWhile Char.isDigit).length
    let tryN := fun (n : Nat) =>
      if n ≤ d then alt3Go cs n (dotGroups (cs.drop n)) else none
    match tryN 3 with
    | some L => some L
    | none =>
      match tryN 2 with
      | some L => some L
      | none => tryN 1

/-- One match attempt of _PRICE_TOKEN_RE at the current position, given
whether the previous character of the original text is a word character;
alternatives are tried in source order, the currency sign is
case-insensitive on the leading R. -/
def priceMatchAt (prevWord : Bool) (cs : List Char) : Option Nat :=
  match cs with
  | [] => none
  | c :: rest =>
    if c = 'R' || c = 'r' then
      match rest with
      | '$' :: ds => afterCurrency 2 ds
      | _ => none
    else if c = '$' then afterCurrency 1 rest
    else if c.isDigit then alt3 prevWord (c :: rest)
    else none

/-- The scan of re.sub for _PRICE_TOKEN_RE: leftmost non-overlapping
matches deleted, boundary context carried through the original characters. -/
def priceSubCore : Nat → Bool → List Char → List Char
  | 0, _, cs => cs
  | _, _, [] => []
  | fuel + 1, prevWord, c :: rest =>
    match priceMatchAt prevWord (c :: rest) with
    | some L =>
      priceSubCore fuel (isWordChar ((c :: rest).getD (L - 1) ' ')) ((c :: rest).drop L)
    | none => c :: priceSubCore fuel (isWordChar c) rest

/-- _PRICE_TOKEN_RE.sub of the empty string over the whole text. -/
def stripPriceRegexSub (s : String) : String :=
  String.mk (priceSubCore (s.data.length + 1) false s.data)

/-- The scan of re.sub for two-or-more whitespace characters replaced by one
space (single whitespace characters stay as they are). -/
def collapseWsCore : Nat → List Char → List Char
  | 0, cs => cs
  | _, [] => []
  | fuel + 1, c :: rest =>
    if pyIsSpace c then
      let run := 1 + (rest.takeWhile pyIsSpace).length
      if 2 ≤ run then ' ' :: collapseWsCore fuel (rest.drop (run - 1))
      else c :: collapseWsCore fuel rest
    else c :: collapseWsCore fuel rest

/-- strip_price_tokens on a string: delete price tokens, collapse repeated
whitespace, right-strip each line, strip the result; blank or empty input is
returned unchanged (the guard of the source). -/
def strip_price_tokens (s : String) : String :=
  if pyStrip s = "" then s
  else
    let cleaned := stripPriceRegexSub s
    let cleaned := String.mk (collapseWsCore (cleaned.data.length + 1) cleaned.data)
    let cleaned := String.intercalate "\n" ((pySplitlines cleaned).map pyRstrip)
    pyStrip cleaned

/-- strip_price_tokens on an arbitrary value: non-strings pass through
unchanged, as by the isinstance guard of the source. -/
def strip_price_tokens_val (text : PyVal) : PyVal :=
  match text with
  | .pstr s => .pstr (strip_price_tokens s)
  | v => v

/- === Description refinement (llm_extract_data.py lines 383-566) === -/

/-- Canonical decomposition to the base letter for the Latin-1 range: the
composed accented lowercase letters NFD splits into base plus combining
mark, with the mark (category Mn) dropped; combining marks already present
are dropped; every other character is untouched (ae, eth, thorn, sharp s
and the masculine/feminine ordinals have no canonical decomposition). -/
def deaccentChar (c : Char) : List Char :=
  if 0x300 ≤ c.toNat && c.toNat ≤ 0x36f then []
  else
    [match c with
     | 'à' | 'á' | 'â' | 'ã' | 'ä' | 'å' => 'a'
     | 'è' | 'é' | 'ê' | 'ë' => 'e'
     | 'ì' | 'í' | 'î' | 'ï' => 'i'
     | 'ò' | 'ó' | 'ô' | 'õ' | 'ö' => 'o'
     | 'ù' | 'ú' | 'û' | 'ü' => 'u'
     | 'ç' => 'c'
     | 'ñ' => 'n'
     | 'ý' | 'ÿ' => 'y'
     | c => c]

/-- The comparison normalization: lower, strip, NFD, drop combining marks. -/
def pyNorm (s : String) : String :=
  String.mk (((pyStrip (pyLower s)).data.map deaccentChar).flatten)

/-- Bullet markers of the chunk-splitting pattern. -/
def isBulletChar (c : Char) : Bool :=
  c.toNat = 8226 || c.toNat = 45 || c.toNat = 8211

/-- Carriage return or newline (the second alternative of the
chunk-splitting pattern). -/
def isCRLF (c : Char) : Bool :=
  c.toNat = 13 || c.toNat = 10

/-- One separator match of the chunk-splitting pattern at the current
position: a newline (or the start of the string) followed by optional
whitespace, a bullet, optional whitespace; otherwise a run of newline
characters.  Backtracking inside the whitespace star never helps because a
bullet is not whitespace, so only the full run is tried. -/
def sepMatchAt (atStart : Bool) (cs : List Char) : Option Nat :=
  let tryBullet := fun (g : Nat) (ds : List Char) =>
    let w := (ds.takeWhile pyIsSpace).length
    match ds.drop w with
    | b :: after =>
      if isBulletChar b then some (g + w + 1 + (after.takeWhile pyIsSpace).length)
      else none
    | [] => none
  let alt1 :=
    match cs with
    | c :: rest =>
      if c = '\n' || c = '\r' then tryBullet 1 rest
      else if atStart then tryBullet 0 (c :: rest)
      else none
    | [] => none
  match alt1 with
  | some L => some L
  | none =>
    match cs with
    | c :: _ => if isCRLF c then some ((cs.takeWhile isCRLF).length) else none
    | [] => none

/-- The scan of re.split for the chunk-splitting pattern (every separator
match is at least one character long, so the fuel of one step per character
suffices). -/
def splitChunksCore : Nat → Bool → List Char → List Char → List String
  | 0, _, acc, cs => [String.mk acc.reverse ++ String.mk cs]
  | _, _, acc, [] => [String.mk acc.reverse]
  | fuel + 1, atStart, acc, c :: rest =>
    match sepMatchAt atStart (c :: rest) with
    | some L => String.mk acc.reverse :: splitChunksCore fuel false [] ((c :: rest).drop L)
    | none => splitChunksCore fuel false (c :: acc) rest

/-- re.split of the chunk-splitting pattern over a whole string. -/
def reSplitChunks (s : String) : List String :=
  splitChunksCore (s.data.length + 1) true [] s.data

/-- Does the buffer end in sentence punctuation, in the sense of the search
for the class period/semicolon/colon anchored at the dollar sign (which also
matches just before one final newline)? -/
def endsSentencePunct (s : String) : Bool :=
  match s.data.reverse with
  | [] => false
  | '\n' :: d :: _ => d = '.' || d = ';' || d = ':'
  | '\n' :: [] => false
  | c :: _ => c = '.' || c = ';' || c = ':'

/-- Does the normalized fragment start with a lowercase letter, a digit, or
a character of the Latin-1 range from a-grave to u-acute (the literal
character class of the source, which spans U+00E0 to U+00FA)? -/
def startsLowerAlnum (s : String) : Bool :=
  match s.data with
  | [] => false
  | c :: _ =>
    ('a' ≤ c && c ≤ 'z') || ('0' ≤ c && c ≤ '9') ||
    (0xe0 ≤ c.toNat && c.toNat ≤ 0xfa)

/-- _line_split_chunks: split on bullets and newlines, keep nonblank parts
stripped of surrounding separators, then merge fragments that look like a
sentence continuation. -/
def _line_split_chunks (text : String) : List String :=
  if text = "" then []
  else
    let parts := (reSplitChunks text).filter (fun p => p ≠ "" && pyStrip p ≠ "")
    let parts := parts.map (pyStripSet [' ', '\t', ';', ',', '.'])
    let st :=
      parts.foldl
        (fun (st : List String × String) p =>
          if st.2 = "" then (st.1, p)
          else if !endsSentencePunct st.2 && startsLowerAlnum (pyNorm p) then
            (st.1, st.2 ++ " " ++ p)
          else (st.1 ++ [pyStrip st.2], p))
        ([], "")
    if st.2 = "" then st.1 else st.1 ++ [pyStrip st.2]

/-- Stable insertion of a string into an ascending list (code-point
lexicographic order, as Python sorted uses on strings). -/
def strInsert (x : String) : List String → List String
  | [] => [x]
  | y :: ys => if x < y then x :: y :: ys else y :: strInsert x ys

/-- Insertion sort on strings (same result as Python sorted). -/
def strInsertionSort : List String → List String
  | [] => []
  | x :: xs => strInsert x (strInsertionSort xs)

/-- _config_keywords: keyword sets triggered by the configuration string,
returned sorted and deduplicated (the source builds a set and sorts it). -/
def _config_keywords (cfg : String) : List String :=
  let n := pyNorm cfg
  if n = "" then []
  else
    let k1 :=
      if pyContains n "sgl" || pyContains n "single" || pyContains n "individual" then
        ["sgl", "single", "individual", "single/individual"]
      else []
    let k2 :=
      if pyContains n "dbl" || pyContains n "duplo" || pyContains n "double" || pyContains n "casal" then
        ["dbl", "duplo", "double", "casal", "s/d"]
      else []
    let k3 :=
      if pyContains n "twin" || pyContains n "duas camas" || pyContains n "2 twin" || pyContains n "solteiro" then
        ["twin", "2 twin", "duas camas", "solteiro", "2 solteiro", "duas de solteiro"]
      else []
    let k4 :=
      if pyContains n "trip" || pyContains n "tripl" || pyContains n "3" then
        ["triplo", "triple", "3", "trp"]
      else []
    let k5 :=
      if pyContains n "quad" || pyContains n "quadru" || pyContains n "4" then
        ["quadruplo", "quadruple", "4", "qdp"]
      else []
    let k6 := if pyContains n "king" then ["king"] else []
    let k7 := if pyContains n "queen" then ["queen"] else []
    let k8 := if pyContains n "casal" then ["casal"] else []
    strInsertionSort ((k1 ++ k2 ++ k3 ++ k4 ++ k5 ++ k6 ++ k7 ++ k8).dedup)

/-- The alias table of _category_match_score in source order. -/
def categoryAliases : List (String × List String) :=
  [ ("standard", ["std", "standard"]),
    ("superior", ["superior"]),
    ("luxo", ["luxo", "deluxe", "lux"]),
    ("deluxe", ["deluxe", "luxo"]),
    ("classic", ["classic"]),
    ("master", ["master"]),
    ("premium", ["premium"]) ]

/-- The alternatives of the category-header pattern, expanded in the order
regex backtracking tries them (apto with its optional dot first with the
dot, then without). -/
def categoryHeadCandidates : List String :=
  ["categoria", "apto.", "apto", "apartamento", "standard", "superior", "luxo", "deluxe", "classic"]

/-- Word boundary between a last matched character and the following
character (absence of a following character counts as non-word). -/
def boundaryBetween (a : Char) (b? : Option Char) : Bool :=
  match b? with
  | none => isWordChar a
  | some b => isWordChar a != isWordChar b

/-- Does one alternative of the category-header pattern match at the start
of nline with a word boundary after it? -/
def headCandidateAt (nline cand : String) : Bool :=
  pyStartsWith nline cand &&
  boundaryBetween (cand.data.getLast?.getD ' ') ((nline.data.drop cand.length).head?)

/-- _category_match_score. -/
def _category_match_score (line categoria : String) : Int :=
  let nline := pyNorm line
  let ncat := pyNorm categoria
  let s1 : Int := if ncat ≠ "" ∧ pyContains nline ncat then 2 else 0
  let s2 : Int :=
    (categoryAliases.map (fun kv =>
      if pyContains ncat kv.1 ∧ kv.2.any (fun val => pyContains nline val) then (1 : Int) else 0)).sum
  let s3 : Int := if categoryHeadCandidates.any (fun cand => headCandidateAt nline cand) then 1 else 0
  s1 + s2 + s3

/-- _config_match_score. -/
def _config_match_score (line cfg : String) : Int :=
  let nline := pyNorm line
  let keys := _config_keywords cfg
  if keys.isEmpty then 0
  else
    let ncfg := pyNorm cfg
    let s1 : Int := ((keys.filter (fun k => pyContains nline k)).length : Int)
    let b1 : Int :=
      if ["single", "individual"].any (fun w => pyContains nline w) then
        (if ["single", "individual", "sgl"].any (fun w => pyContains ncfg w) then 1 else 0)
      else 0
    let b2 : Int :=
      if ["duplo", "double", "casal"].any (fun w => pyContains nline w) then
        (if ["duplo", "double", "casal", "dbl"].any (fun w => pyContains ncfg w) then 1 else 0)
      else 0
    let b3 : Int :=
      if pyContains nline "twin" then (if pyContains ncfg "twin" then 1 else 0) else 0
    let b4 : Int :=
      if pyContains nline "triplo" || pyContains nline "triple" then
        (if ["trip", "tripl"].any (fun w => pyContains ncfg w) then 1 else 0)
      else 0
    let b5 : Int :=
      if pyContains nline "quadru" || pyContains nline "4" then
        (if ["quadru", "4"].any (fun w => pyContains ncfg w) then 1 else 0)
      else 0
    s1 + b1 + b2 + b3 + b4 + b5

/-- HOTEL_WIDE_TERMS in source order. -/
def HOTEL_WIDE_TERMS : List String :=
  [ "café da manhã", "cafe da manha",
    "taxa", "iss", "serviço", "servico",
    "política de pagamento", "politica de pagamento",
    "política de cancelamento", "politica de cancelamento",
    "pré pagamento", "pre pagamento", "pré-pagamento", "pre-pagamento",
    "no show", "faturamento", "boleto", "pix", "cartão", "cartao", "depósito", "deposito" ]

/-- One separator match of the sentence-splitting pattern of
_remove_hotel_wide_info at the current position: whitespace after sentence
punctuation (lookbehind), else optional whitespace around a semicolon or a
pipe. -/
def sentSepAt (prev : Option Char) (cs : List Char) : Option Nat :=
  let altA :=
    match prev, cs with
    | some p, c :: _ =>
      if (p = '.' || p = '!' || p = '?') && pyIsSpace c then
        some ((cs.takeWhile pyIsSpace).length)
      else none
    | _, _ => none
  match altA with
  | some L => some L
  | none =>
    let w := (cs.takeWhile pyIsSpace).length
    match cs.drop w with
    | ';' :: r2 => some (w + 1 + (r2.takeWhile pyIsSpace).length)
    | '|' :: r2 => some (w + 1 + (r2.takeWhile pyIsSpace).length)
    | _ => none

/-- The scan of re.split for the sentence-splitting pattern, carrying the
previous original character for the lookbehind. -/
def splitSentencesCore : Nat → Option Char → List Char → List Char → List String
  | 0, _, acc, cs => [String.mk acc.reverse ++ String.mk cs]
  | _, _, acc, [] => [String.mk acc.reverse]
  | fuel + 1, prev, acc, c :: rest =>
    match sentSepAt prev (c :: rest) with
    | some L =>
      String.mk acc.reverse ::
        splitSentencesCore fuel (some ((c :: rest).getD (L - 1) ' ')) [] ((c :: rest).drop L)
    | none => splitSentencesCore fuel (some c) (c :: acc) rest

/-- re.split of the sentence-splitting pattern over a whole string. -/
def reSplitSentences (s : String) : List String :=
  splitSentencesCore (s.data.length + 1) none [] s.data

/-- _remove_hotel_wide_info: for each term (in order) present in the
normalized text, drop every sentence containing it and rejoin the survivors
with a semicolon separator; finally strip. -/
def _remove_hotel_wide_info (s0 : String) : String :=
  pyStrip
    (HOTEL_WIDE_TERMS.foldl
      (fun s term =>
        if pyContains (pyNorm s) term then
          let keep := (reSplitSentences s).filter (fun t => !pyContains (pyNorm t) term)
          String.intercalate "; " ((keep.map pyStrip).filter (fun t => t ≠ ""))
        else s)
      s0)

/-- Strict lexicographic order on the scored triples (total score, negated
length, line), matching Python tuple comparison. -/
def tupleLt (a b : Int × Int × String) : Bool :=
  decide (a.1 < b.1) ||
  (a.1 = b.1 &&
    (decide (a.2.1 < b.2.1) || (a.2.1 = b.2.1 && decide (a.2.2 < b.2.2))))

/-- Largest triple of a nonempty list (head plus tail): the element a
descending sort puts first. -/
def maxTriple (x : Int × Int × String) (l : List (Int × Int × String)) : Int × Int × String :=
  l.foldl (fun acc y => if tupleLt acc y then y else acc) x

/-- The scored candidate triples of refine_description_for_quote: positive
combined score (category weighted three), negated length, line; blank lines
skipped. -/
def refineScored (lines : List String) (categoria cfg : String) : List (Int × Int × String) :=
  lines.filterMap (fun ln =>
    if pyStrip ln = "" then none
    else
      let total := _category_match_score ln categoria * 3 + _config_match_score ln cfg
      if 0 < total then some (total, -(ln.length : Int), ln) else none)

/-- The category-only fallback triples of refine_description_for_quote. -/
def refineOnlyCat (lines : List String) (categoria : String) : List (Int × Int × String) :=
  lines.filterMap (fun ln =>
    let cs := _category_match_score ln categoria
    if 0 < cs then some (cs, -(ln.length : Int), ln) else none)

/-- refine_description_for_quote: sanitize the block, split it into
candidate lines, return the stripped best-scored line (the first element
after a descending sort, so the largest triple), else the best
category-only line, else a short synthesis from category/configuration. -/
def refine_description_for_quote (desc_block categoria cfg : String) : String :=
  if desc_block = "" then ""
  else
    let d1 := strip_price_tokens desc_block
    let d2 := _remove_hotel_wide_info d1
    let lines := _line_split_chunks d2
    if lines.isEmpty then ""
    else
      match refineScored lines categoria cfg with
      | t :: ts => pyStrip (maxTriple t ts).2.2
      | [] =>
        match refineOnlyCat lines categoria with
        | t :: ts => pyStrip (maxTriple t ts).2.2
        | [] =>
          let cat := pyStrip categoria
          let c := pyStrip cfg
          if cat ≠ "" ∧ c ≠ "" then cat ++ ": " ++ c
          else if cat ≠ "" then cat
          else if c ≠ "" then c
          else ""

/-- Python truthiness of a value. -/
def pyTruthy (v : PyVal) : Bool :=
  match v with
  | .pnone => false
  | .pbool b => b
  | .pint n => n ≠ 0
  | .pfloat q => q ≠ 0
  | .pstr s => s ≠ ""
  | .plist xs => !xs.isEmpty
  | .pdict es => !es.isEmpty

/-- The Python idiom x or empty-string: the value if truthy else the empty
string. -/
def orEmptyStr (v : PyVal) : PyVal :=
  if pyTruthy v then v else .pstr ""

/-- synthesize_room_description: short synthesis from the category and
configuration fields of the quote. -/
def synthesize_room_description (quote : PyDict) : String :=
  let cat := pyStrip (pyStr (orEmptyStr ((dictGet? quote "Categoria do quarto").getD (.pstr ""))))
  let cfg := pyStrip (pyStr (orEmptyStr ((dictGet? quote "Configuração do quarto").getD (.pstr ""))))
  if cat ≠ "" ∧ cfg ≠ "" then cat ++ ": " ++ cfg
  else if cat ≠ "" then cat
  else if cfg ≠ "" then cfg
  else ""

/- === enrich_and_validate_quote (llm_extract_data.py lines 571-610) === -/

/-- The canonical-field backfill: add an empty string under every canonical
key not yet present, in canonical order. -/
def backfillFields (q : PyDict) : PyDict :=
  HEADER_FIELDS.foldl (fun d f => if dictContains d f then d else dictSet d f (.pstr "")) q

/-- The unconditional price-coercion step of enrich_and_validate_quote. -/
def priceStep (q : PyDict) : PyDict :=
  dictSet q "Preço (num)" (coerce_price ((dictGet? q "Preço (num)").getD .pnone))

/-- The conditional top-level-sender backfill step. -/
def topEmailStep (q : PyDict) (body_text : String) : PyDict :=
  if pyStrip (pyStr ((dictGet? q "Email do remetente (top-level)").getD (.pstr ""))) = "" then
    let top_from := extract_top_from_email body_text
    if top_from ≠ "" then dictSet q "Email do remetente (top-level)" (.pstr top_from) else q
  else q

/-- The conditional supplier-email backfill step. -/
def supplierEmailStep (q : PyDict) (body_text : String) : PyDict :=
  if pyStrip (pyStr ((dictGet? q "Email do fornecedor").getD (.pstr ""))) = "" then
    let supplier := extract_supplier_email_heuristic body_text
    if supplier ≠ "" then dictSet q "Email do fornecedor" (.pstr supplier) else q
  else q

/-- The unconditional description refinement step (with synthesis fallback). -/
def descStep (q : PyDict) : PyDict :=
  let raw_desc := pyStr (orEmptyStr ((dictGet? q "Descrição dos Quartos").getD (.pstr "")))
  let desc := strip_price_tokens raw_desc
  let desc_refined :=
    pyStrip (refine_description_for_quote desc
      (pyStr (orEmptyStr ((dictGet? q "Categoria do quarto").getD (.pstr ""))))
      (pyStr (orEmptyStr ((dictGet? q "Configuração do quarto").getD (.pstr "")))))
  let desc_final := if desc_refined = "" then synthesize_room_description q else desc_refined
  dictSet q "Descrição dos Quartos" (.pstr desc_final)

/-- enrich_and_validate_quote: alias remap, key backfill, unconditional
price coercion, conditional email backfills, unconditional description
refinement (with synthesis fallback), in the strict source order. -/
def enrich_and_validate_quote (quote0 : PyDict) (body_text : String) : PyDict :=
  descStep
    (supplierEmailStep
      (topEmailStep (priceStep (backfillFields (normalize_key_aliases quote0))) body_text)
      body_text)

/- === Pipeline driver (llm_extract_data.py lines 613-757) === -/

/-- extract_body_from_rawtext: unwrap a JSON envelope to its body field (or
metadata.body), else the raw text itself. -/
def extract_body_from_rawtext (raw_text : String) : String :=
  match jsonLoads raw_text with
  | some (.pdict d) =>
    match dictGet? d "body" with
    | some (.pstr b) => b
    | _ =>
      match dictGet? d "metadata" with
      | some (.pdict md) =>
        match dictGet? md "body" with
        | some (.pstr b) => b
        | _ => raw_text
      | _ => raw_text
  | _ => raw_text

/-- One input file of the batch: its path, the text read from it (an
external read), and the outcome of its LLM call (an external, possibly
failing, network round-trip). -/
structure FileInput where
  path : String
  raw : String
  llm : Except String String

/-- call_llm retry ladder: try the attempts in order; a success returns at
once, and the last failure (attempt six) re-raises. -/
def callLlmAux (results : Nat → Except String String) (attempt remaining : Nat) :
    Except String String :=
  match results attempt, remaining with
  | .ok t, _ => .ok t
  | .error e, 0 => .error e
  | .error _, r + 1 => callLlmAux results (attempt + 1) r

/-- call_llm with its six attempts. -/
def call_llm_model (results : Nat → Except String String) : Except String String :=
  callLlmAux results 1 5

/-- The per-file metadata that heads every output record. -/
def metaBase (path model : String) : PyDict :=
  [("_source_raw", .pstr path), ("_llm_model", .pstr model)]

/-- process_file: an LLM failure propagates (error branch); a parse
failure yields one error record; an empty result yields one marker record;
otherwise each candidate is enriched, checked and tagged.  The per-record
file writes are external sinks; the returned list is what main aggregates. -/
def process_file_model (model : String) (f : FileInput) : Except String (List PyDict) :=
  match f.llm with
  | .error e => .error e
  | .ok llm_text =>
    let body_text := extract_body_from_rawtext f.raw
    let mb := metaBase f.path model
    match parse_llm_to_list llm_text with
    | .error e =>
      .ok [dictMerge mb
        [("_error", .pstr ("JSON parse fail: " ++ e)),
         ("_llm_raw_response", .pstr (String.mk (llm_text.data.take 2000)))]]
    | .ok [] => .ok [dictMerge mb [("_error", .pstr "EMPTY_RESULT_FROM_LLM")]]
    | .ok quotes =>
      .ok (quotes.map (fun q =>
        let q2 := enrich_and_validate_quote q body_text
        let cc := complete_check q2 HEADER_FIELDS
        let out := dictMerge mb q2
        if cc.1 then out else dictSet out "_missing_fields" (.plist (cc.2.map .pstr))))

/-- The per-file error record main appends when process_file raises. -/
def processErrorRecord (model : String) (f : FileInput) (e : String) : PyDict :=
  [("_source_raw", .pstr f.path), ("_llm_model", .pstr model),
   ("_error", .pstr ("PROCESS_FAIL: " ++ e))]

/-- One iteration of the main loop: append the rows of the file, or the
per-file error record if its processing raised. -/
def mainStep (model : String) (acc : List PyDict) (f : FileInput) : List PyDict :=
  match process_file_model model f with
  | .ok rows => acc ++ rows
  | .error e => acc ++ [processErrorRecord model f e]

/-- The aggregate the main loop builds over the batch (the JSONL log rows,
in file order then record order). -/
def main_loop (model : String) (files : List FileInput) : List PyDict :=
  files.foldl (mainStep model) []

/- ===================== Lemmas and claim theorems ===================== -/

theorem dictGet?_set_self (d : PyDict) (k : String) (v : PyVal) :
    dictGet? (dictSet d k v) k = some v := by
  induction d with
  | nil => simp [dictSet, dictGet?]
  | cons kv rest ih =>
    obtain ⟨k1, v1⟩ := kv
    by_cases h : k1 = k <;> simp [dictSet, dictGet?, h, ih]

theorem dictGet?_set_ne (d : PyDict) (k k2 : String) (v : PyVal) (h : k2 ≠ k) :
    dictGet? (dictSet d k v) k2 = dictGet? d k2 := by
  induction d with
  | nil => simp [dictSet, dictGet?, Ne.symm h]
  | cons kv rest ih =>
    obtain ⟨k1, v1⟩ := kv
    by_cases h1 : k1 = k
    · subst h1
      simp [dictSet, dictGet?, Ne.symm h]
    · simp [dictSet, dictGet?, h1, ih]

theorem dictGet?_erase_ne (d : PyDict) (j k : String) (h : k ≠ j) :
    dictGet? (dictErase d j) k = dictGet? d k := by
  induction d with
  | nil => simp [dictErase]
  | cons kv rest ih =>
    obtain ⟨k1, v1⟩ := kv
    by_cases h1 : k1 = j
    · subst h1
      simp [dictErase, dictGet?, Ne.symm h]
    · by_cases h2 : k1 = k <;> simp [dictErase, dictGet?, h1, h2, ih, h]

theorem dictGet?_append (d e : PyDict) (k : String) :
    dictGet? (d ++ e) k = ((dictGet? d k).rec (dictGet? e k) (fun v => some v) : Option PyVal) := by
  induction d with
  | nil => simp [dictGet?]
  | cons kv rest ih =>
    obtain ⟨k1, v1⟩ := kv
    by_cases h : k1 = k <;> simp [dictGet?, h, ih]

theorem dictGet?_append_of_some (d e : PyDict) (k : String) (v : PyVal)
    (h : dictGet? d k = some v) : dictGet? (d ++ e) k = some v := by
  rw [dictGet?_append, h]

/-- The string branch shared by coerce_price and price_spec. -/
theorem coerce_branch_eq_spec (s : String) :
    (let t := pyStrip s
     if t = "" then PyVal.pstr ""
     else
       let s2 :=
         if t.data.count ',' = 1 ∧ t.data.count '.' > 1 then
           pyReplaceChar (pyRemoveChar t '.') ',' '.'
         else pyReplaceChar t ',' '.'
       match pyFloat? s2 with
       | some q => PyVal.pfloat q
       | none => PyVal.pstr "") = price_spec s := by
  by_cases h0 : pyStrip s = ""
  · simp [price_spec, h0]
  · by_cases h1 : (pyStrip s).data.count ',' = 1 ∧ (pyStrip s).data.count '.' > 1 <;>
      simp [price_spec, h0, h1]

theorem coerce_price_pstr (s : String) : coerce_price (.pstr s) = price_spec s :=
  coerce_branch_eq_spec s

theorem coerce_price_plist (xs : List PyVal) :
    coerce_price (.plist xs) = price_spec (pyStr (.plist xs)) :=
  coerce_branch_eq_spec (pyStr (.plist xs))

theorem coerce_price_pdict (es : PyDict) :
    coerce_price (.pdict es) = price_spec (pyStr (.pdict es)) :=
  coerce_branch_eq_spec (pyStr (.pdict es))

theorem price_spec_cases (s : String) :
    (∃ q, price_spec s = .pfloat q) ∨ price_spec s = .pstr "" := by
  unfold price_spec
  by_cases h0 : pyStrip s = ""
  · simp [h0]
  · by_cases h1 : (pyStrip s).data.count ',' = 1 ∧ (pyStrip s).data.count '.' > 1
    · simp only [if_neg h0, if_pos h1]
      cases hm : pyFloat? (pyReplaceChar (pyRemoveChar (pyStrip s) '.') ',' '.') with
      | none => exact Or.inr rfl
      | some q => exact Or.inl ⟨q, rfl⟩
    · simp only [if_neg h0, if_neg h1]
      cases hm : pyFloat? (pyReplaceChar (pyStrip s) ',' '.') with
      | none => exact Or.inr rfl
      | some q => exact Or.inl ⟨q, rfl⟩

/-- coerce_price always yields a float or the empty string. -/
theorem coerce_price_cases (v : PyVal) :
    (∃ q, coerce_price v = .pfloat q) ∨ coerce_price v = .pstr "" := by
  cases v with
  | pnone => exact Or.inr rfl
  | pbool b => exact Or.inl ⟨_, rfl⟩
  | pint n => exact Or.inl ⟨_, rfl⟩
  | pfloat q => exact Or.inl ⟨_, rfl⟩
  | pstr s => rw [coerce_price_pstr]; exact price_spec_cases s
  | plist xs => rw [coerce_price_plist]; exact price_spec_cases _
  | pdict es => rw [coerce_price_pdict]; exact price_spec_cases _

/- === C1 === -/

/--
C1 counterexample: the claim asserts that the Price Normalizer sends the
string of one comma and one period "1.234,56" to the float 1234.56; on the
code the disambiguation branch needs more than one period, so this input
takes the comma-replacement branch, becomes "1.234.56", fails to parse, and
coerce_price returns the empty string instead.
-/
theorem coerce_price_claim_counterexample :
    coerce_price (.pstr "1.234,56") = .pstr "" ∧
    PyVal.pstr "" ≠ PyVal.pfloat (1234.56 : ℚ) :=
  ⟨rfl, fun h => PyVal.noConfusion h⟩

/--
C1 (amended): on every string input coerce_price strips the value and, when
the stripped string has exactly one comma and more than one period, deletes
the periods and turns the comma into a period; on every other string it
replaces every comma by a period (it does not delete commas); the result is
parsed as a float, and a parse failure gives the empty string (price_spec is
this amended algorithm written out).  In particular "1.234,56" fails to
parse and gives the empty string, while "1234.56", "1.234.567,89" and
"1234,56" parse to the expected floats.
-/
theorem coerce_price_matches_amended_model :
    (∀ s : String, coerce_price (.pstr s) = price_spec s) ∧
    coerce_price (.pstr "1.234,56") = .pstr "" ∧
    coerce_price (.pstr "1234.56") = .pfloat (1234.56 : ℚ) ∧
    coerce_price (.pstr "1.234.567,89") = .pfloat (1234567.89 : ℚ) ∧
    coerce_price (.pstr "1234,56") = .pfloat (1234.56 : ℚ) := by
  refine ⟨coerce_price_pstr, rfl, ?_, ?_, ?_⟩
  · rw [show (1234.56 : ℚ) = mkRat 123456 100 from by norm_num [mkRat, Rat.normalize]]
    exact rfl
  · rw [show (1234567.89 : ℚ) = mkRat 123456789 100 from by norm_num [mkRat, Rat.normalize]]
    exact rfl
  · rw [show (1234.56 : ℚ) = mkRat 123456 100 from by norm_num [mkRat, Rat.normalize]]
    exact rfl

/- === C2 === -/

/--
C2: the completeness check over the canonical field list is complete exactly
when no field is missing; a field is missing exactly when its key is absent,
its value is None, or its value is a string whose stripped form is empty;
the missing list contains exactly the canonical fields that are missing, and
completeness is equivalent to that list being empty.
-/
theorem complete_check_characterization :
    ∀ record : PyDict,
      ((complete_check record HEADER_FIELDS).1 = true ↔
        ∀ k ∈ HEADER_FIELDS, field_missing record k = false) ∧
      (∀ k, k ∈ (complete_check record HEADER_FIELDS).2 ↔
        (k ∈ HEADER_FIELDS ∧ field_missing record k = true)) ∧
      ((complete_check record HEADER_FIELDS).1 = true ↔
        (complete_check record HEADER_FIELDS).2 = []) ∧
      (∀ k, field_missing record k = true ↔
        (dictGet? record k = none ∨ dictGet? record k = some .pnone ∨
          ∃ s, dictGet? record k = some (.pstr s) ∧ pyStrip s = "")) := by
  intro record
  refine ⟨?_, ?_, ?_, ?_⟩
  · simp only [complete_check, List.isEmpty_iff, List.filter_eq_nil_iff]
    constructor
    · intro h k hk
      by_contra hb
      exact h k hk (by simpa using hb)
    · intro h k hk hm
      rw [h k hk] at hm
      exact Bool.false_ne_true hm
  · intro k
    simp [complete_check, List.mem_filter]
  · simp [complete_check, List.isEmpty_iff]
  · intro k
    unfold field_missing
    cases h : dictGet? record k with
    | none => simp
    | some v => cases v <;> simp

/--
C2 witness: a concrete record with one blank field is incomplete with
exactly that behavior at the field Cidade.
-/
theorem complete_check_characterization_witness :
    "Cidade" ∈ (complete_check [("Cidade", PyVal.pstr " ")] HEADER_FIELDS).2 :=
  ((complete_check_characterization [("Cidade", PyVal.pstr " ")]).2.1 "Cidade").mpr
    (by constructor <;> decide)

/- === C6 === -/

theorem topEmailStep_get_ne (q : PyDict) (body : String) (k : String)
    (h : k ≠ "Email do remetente (top-level)") :
    dictGet? (topEmailStep q body) k = dictGet? q k := by
  unfold topEmailStep
  split
  · show dictGet?
        (if extract_top_from_email body ≠ "" then
          dictSet q "Email do remetente (top-level)" (.pstr (extract_top_from_email body))
        else q) k = dictGet? q k
    split
    · exact dictGet?_set_ne _ _ _ _ h
    · rfl
  · rfl

theorem supplierEmailStep_get_ne (q : PyDict) (body : String) (k : String)
    (h : k ≠ "Email do fornecedor") :
    dictGet? (supplierEmailStep q body) k = dictGet? q k := by
  unfold supplierEmailStep
  split
  · show dictGet?
        (if extract_supplier_email_heuristic body ≠ "" then
          dictSet q "Email do fornecedor" (.pstr (extract_supplier_email_heuristic body))
        else q) k = dictGet? q k
    split
    · exact dictGet?_set_ne _ _ _ _ h
    · rfl
  · rfl

theorem descStep_get_ne (q : PyDict) (k : String)
    (h : k ≠ "Descrição dos Quartos") :
    dictGet? (descStep q) k = dictGet? q k :=
  dictGet?_set_ne _ _ _ _ h

theorem enrich_price_lookup (q : PyDict) (body : String) :
    dictGet? (enrich_and_validate_quote q body) "Preço (num)" =
      some (coerce_price
        ((dictGet? (backfillFields (normalize_key_aliases q)) "Preço (num)").getD .pnone)) := by
  unfold enrich_and_validate_quote
  rw [descStep_get_ne _ _ (by decide), supplierEmailStep_get_ne _ _ _ (by decide),
      topEmailStep_get_ne _ _ _ (by decide)]
  exact dictGet?_set_self _ _ _

/--
C6: the Price Normalizer is total on every modelled Python value and always
returns a float or the empty string (the model returns a value rather than
raising, matching the try/except of the source); consequently the price
field of every enriched record is present and is a float or the empty
string.
-/
theorem price_always_float_or_empty :
    (∀ v : PyVal, (∃ q, coerce_price v = .pfloat q) ∨ coerce_price v = .pstr "") ∧
    (∀ (q : PyDict) (body : String),
      ∃ p, dictGet? (enrich_and_validate_quote q body) "Preço (num)" = some p ∧
        ((∃ x, p = .pfloat x) ∨ p = .pstr "")) := by
  refine ⟨coerce_price_cases, fun q body => ?_⟩
  refine ⟨_, enrich_price_lookup q body, ?_⟩
  rcases coerce_price_cases
      ((dictGet? (backfillFields (normalize_key_aliases q)) "Preço (num)").getD .pnone) with
    ⟨x, hx⟩ | hx
  · exact Or.inl ⟨x, hx⟩
  · exact Or.inr hx

/- === C7 === -/

theorem dictContains_append_self (a : PyDict) (k : String) (v : PyVal) :
    dictContains (a ++ [(k, v)]) k = true := by
  unfold dictContains
  rw [dictGet?_append]
  cases h : dictGet? a k <;> simp [dictGet?]

theorem dictGet?_none_erase (d : PyDict) (j k : String) (h : dictGet? d k = none) :
    dictGet? (dictErase d j) k = none := by
  induction d with
  | nil => exact h
  | cons kv rest ih =>
    obtain ⟨k1, v1⟩ := kv
    by_cases h1 : k1 = k
    · subst h1
      simp [dictGet?] at h
    · have h0 : dictGet? rest k = none := by simpa [dictGet?, h1] using h
      by_cases h2 : k1 = j
      · subst h2
        simpa [dictErase] using h0
      · simp [dictErase, dictGet?, h1, h2, ih h0]

theorem aliasStep_id (d : PyDict) (r : String × String)
    (h : dictGet? d r.1 = none ∨ dictContains d r.2 = true) :
    aliasStep d r = d := by
  unfold aliasStep
  cases hg : dictGet? d r.1 with
  | none => rfl
  | some v =>
    rcases h with h | h
    · rw [hg] at h
      exact absurd h (by simp)
    · simp [h]

theorem aliasStep_contains_of (d : PyDict) (r : String × String) (k : String)
    (hk : k ≠ r.1) (h : dictContains d k = true) :
    dictContains (aliasStep d r) k = true := by
  unfold aliasStep
  cases hg : dictGet? d r.1 with
  | none => exact h
  | some v =>
    by_cases hc : dictContains d r.2
    · simp [hc, h]
    · simp only [hc, if_false, Bool.false_eq_true]
      unfold dictContains at h ⊢
      rw [dictGet?_append]
      rw [dictGet?_erase_ne d r.1 k hk]
      cases hgk : dictGet? d k with
      | none => rw [hgk] at h; simp at h
      | some w => simp

theorem aliasStep_not_contains_of (d : PyDict) (r : String × String) (k : String)
    (hk : k ≠ r.2) (h : dictContains d k = false) :
    dictContains (aliasStep d r) k = false := by
  unfold aliasStep
  cases hg : dictGet? d r.1 with
  | none => exact h
  | some v =>
    by_cases hc : dictContains d r.2
    · simp [hc, h]
    · simp only [hc, if_false, Bool.false_eq_true]
      unfold dictContains at h ⊢
      rw [dictGet?_append]
      have h0 : dictGet? d k = none := by
        cases hgk : dictGet? d k with
        | none => rfl
        | some w => rw [hgk] at h; simp at h
      rw [dictGet?_none_erase d r.1 k h0]
      simp [dictGet?, Ne.symm hk]

theorem aliasStep_post (d : PyDict) (r : String × String) :
    dictGet? (aliasStep d r) r.1 = none ∨ dictContains (aliasStep d r) r.2 = true := by
  unfold aliasStep
  cases hg : dictGet? d r.1 with
  | none => exact Or.inl hg
  | some v =>
    dsimp only
    by_cases hc : dictContains d r.2 = true
    · rw [if_pos hc]
      exact Or.inr hc
    · rw [if_neg hc]
      exact Or.inr (dictContains_append_self _ _ _)

theorem aliasStep_ne_nil (d : PyDict) (r : String × String) (h : d ≠ []) :
    aliasStep d r ≠ [] := by
  unfold aliasStep
  cases hg : dictGet? d r.1 with
  | none => exact h
  | some v =>
    by_cases hc : dictContains d r.2
    · simp [hc, h]
    · simp [hc]

theorem foldl_alias_ne_nil (rules : List (String × String)) (d : PyDict) (h : d ≠ []) :
    rules.foldl aliasStep d ≠ [] := by
  induction rules generalizing d with
  | nil => exact h
  | cons r rest ih => exact ih _ (aliasStep_ne_nil d r h)

theorem foldl_alias_id (rules : List (String × String)) (d : PyDict)
    (h : ∀ r ∈ rules, dictGet? d r.1 = none ∨ dictContains d r.2 = true) :
    rules.foldl aliasStep d = d := by
  induction rules with
  | nil => rfl
  | cons r rest ih =>
    have h0 := aliasStep_id d r (h r (by simp))
    simp only [List.foldl_cons, h0]
    exact ih (fun r' hr' => h r' (by simp [hr']))

theorem foldl_alias_not_contains (rules : List (String × String)) (d : PyDict) (k : String)
    (hk : ∀ r ∈ rules, k ≠ r.2) (h : dictContains d k = false) :
    dictContains (rules.foldl aliasStep d) k = false := by
  induction rules generalizing d with
  | nil => exact h
  | cons r rest ih =>
    exact ih _ (fun r' hr' => hk r' (by simp [hr']))
      (aliasStep_not_contains_of d r k (hk r (by simp)) h)

theorem foldl_alias_contains (rules : List (String × String)) (d : PyDict) (k : String)
    (hk : ∀ r ∈ rules, k ≠ r.1) (h : dictContains d k = true) :
    dictContains (rules.foldl aliasStep d) k = true := by
  induction rules generalizing d with
  | nil => exact h
  | cons r rest ih =>
    exact ih _ (fun r' hr' => hk r' (by simp [hr']))
      (aliasStep_contains_of d r k (hk r (by simp)) h)

theorem foldl_alias_post (rules : List (String × String)) (d : PyDict)
    (hdisj : ∀ r ∈ rules, ∀ r' ∈ rules, r.1 ≠ r'.2 ∧ r.2 ≠ r'.1) :
    ∀ r ∈ rules, dictGet? (rules.foldl aliasStep d) r.1 = none ∨
      dictContains (rules.foldl aliasStep d) r.2 = true := by
  induction rules generalizing d with
  | nil => intro r hr; cases hr
  | cons r0 rest ih =>
    intro r hr
    simp only [List.foldl_cons]
    rcases List.mem_cons.mp hr with hr0 | hrrest
    · subst hr0
      rcases aliasStep_post d r with hl | hrt
      · refine Or.inl ?_
        have hfalse : dictContains (aliasStep d r) r.1 = false := by
          unfold dictContains
          rw [hl]
          rfl
        have := foldl_alias_not_contains rest (aliasStep d r) r.1
          (fun r' hr' => ((hdisj r hr r' (by simp [hr'])).1)) hfalse
        unfold dictContains at this
        cases hg : dictGet? (List.foldl aliasStep (aliasStep d r) rest) r.1 with
        | none => rfl
        | some w => rw [hg] at this; simp at this
      · exact Or.inr (foldl_alias_contains rest (aliasStep d r) r.2
          (fun r' hr' => ((hdisj r hr r' (by simp [hr'])).2)) hrt)
    · exact ih (aliasStep d r0)
        (fun a ha b hb => hdisj a (by simp [ha]) b (by simp [hb])) r hrrest

theorem aliasStep_get_preserved (d : PyDict) (r : String × String) (k : String) (v : PyVal)
    (hk : k ≠ r.1) (h : dictGet? d k = some v) :
    dictGet? (aliasStep d r) k = some v := by
  unfold aliasStep
  cases hg : dictGet? d r.1 with
  | none => exact h
  | some w =>
    by_cases hc : dictContains d r.2
    · simp [hc, h]
    · simp only [hc, if_false, Bool.false_eq_true]
      refine dictGet?_append_of_some _ _ _ _ ?_
      rw [dictGet?_erase_ne d r.1 k hk]
      exact h

theorem foldl_alias_get_preserved (rules : List (String × String)) (d : PyDict)
    (k : String) (v : PyVal) (hk : ∀ r ∈ rules, k ≠ r.1) (h : dictGet? d k = some v) :
    dictGet? (rules.foldl aliasStep d) k = some v := by
  induction rules generalizing d with
  | nil => exact h
  | cons r rest ih =>
    exact ih _ (fun r' hr' => hk r' (by simp [hr']))
      (aliasStep_get_preserved d r k v (hk r (by simp)) h)

/--
C7: applying the Schema Alias Map twice yields the same dict as applying it
once (after one pass every rule is inert: its old key is gone or its new key
is present, and old keys are never re-introduced), and a value already
stored under a new key is never overwritten by a value carried under an old
key.
-/
theorem normalize_key_aliases_idempotent :
    (∀ d : PyDict, normalize_key_aliases (normalize_key_aliases d) = normalize_key_aliases d) ∧
    (∀ (d : PyDict) (r : String × String) (v : PyVal), r ∈ OLD_TO_NEW_KEYS →
      dictGet? d r.2 = some v → dictGet? (normalize_key_aliases d) r.2 = some v) := by
  constructor
  · intro d
    by_cases hd : d.isEmpty
    · have : d = [] := by cases d <;> simp_all
      subst this
      rfl
    · unfold normalize_key_aliases
      simp only [hd, if_false, Bool.false_eq_true]
      have hne : OLD_TO_NEW_KEYS.foldl aliasStep d ≠ [] := by
        refine foldl_alias_ne_nil _ _ ?_
        cases d
        · simp at hd
        · simp
      have hempty : (OLD_TO_NEW_KEYS.foldl aliasStep d).isEmpty = false := by
        cases h : OLD_TO_NEW_KEYS.foldl aliasStep d
        · exact absurd h hne
        · rfl
      simp only [hempty, if_false, Bool.false_eq_true]
      exact foldl_alias_id _ _ (foldl_alias_post OLD_TO_NEW_KEYS d (by decide))
  · intro d r v hr hv
    unfold normalize_key_aliases
    by_cases hd : d.isEmpty
    · simp only [hd, if_true]
      exact hv
    · simp only [hd, if_false, Bool.false_eq_true]
      refine foldl_alias_get_preserved _ _ _ _ ?_ hv
      have hd2 : ∀ a ∈ OLD_TO_NEW_KEYS, ∀ b ∈ OLD_TO_NEW_KEYS, a.2 ≠ b.1 := by decide
      exact fun r' hr' => hd2 r hr r' hr'

/--
C7 witness: a concrete record holding both an old key and its new key keeps
the value stored under the new key, and a second application of the map is
the identity on a concrete remapped record.
-/
theorem normalize_key_aliases_idempotent_witness :
    dictGet?
      (normalize_key_aliases
        [("Tipo de quarto (normalizado)", PyVal.pstr "std"),
         ("Categoria do quarto", PyVal.pstr "luxo")])
      "Categoria do quarto" = some (PyVal.pstr "luxo") :=
  normalize_key_aliases_idempotent.2
    [("Tipo de quarto (normalizado)", PyVal.pstr "std"),
     ("Categoria do quarto", PyVal.pstr "luxo")]
    ("Tipo de quarto (normalizado)", "Categoria do quarto") (PyVal.pstr "luxo")
    (by decide) rfl

/- === C9 === -/

theorem mainStep_acc (model : String) (acc : List PyDict) (f : FileInput) :
    mainStep model acc f = acc ++ mainStep model [] f := by
  unfold mainStep
  cases process_file_model model f <;> simp

theorem main_loop_foldl_acc (model : String) (l : List FileInput) (acc : List PyDict) :
    l.foldl (mainStep model) acc = acc ++ l.foldl (mainStep model) [] := by
  induction l generalizing acc with
  | nil => simp
  | cons f t ih =>
    simp only [List.foldl_cons]
    rw [ih (mainStep model acc f), mainStep_acc model acc f, ih (mainStep model [] f)]
    simp

/--
C9: batch error isolation in the driver.  The aggregate over a batch is the
concatenation of the per-file aggregates, so a file whose processing raises
(for example an LLM call that still fails at the sixth attempt, which
call_llm re-raises) contributes exactly its per-file error record and does
not prevent any other file of the batch from producing its records; the
loop itself is a total function (no exception escapes it in the model).
-/
theorem main_loop_error_isolation :
    (∀ (model : String) (fs1 fs2 : List FileInput),
      main_loop model (fs1 ++ fs2) = main_loop model fs1 ++ main_loop model fs2) ∧
    (∀ (model path raw e : String),
      main_loop model [⟨path, raw, Except.error e⟩] =
        [processErrorRecord model ⟨path, raw, Except.error e⟩ e]) ∧
    (∀ e : String, call_llm_model (fun _ => Except.error e) = Except.error e) := by
  refine ⟨fun model fs1 fs2 => ?_, fun model path raw e => rfl, fun e => rfl⟩
  unfold main_loop
  rw [List.foldl_append, main_loop_foldl_acc]

/- === C5 === -/

/--
C5 counterexample: the claim says every step of the enrichment pipeline only
fills blank fields and never overwrites a non-blank value the LLM supplied;
but price coercion rewrites the price unconditionally, so the non-blank
unparseable price "abc" is overwritten with the empty string.
-/
theorem enrich_overwrites_counterexample :
    dictGet? (enrich_and_validate_quote [("Preço (num)", PyVal.pstr "abc")] "")
        "Preço (num)" = some (PyVal.pstr "") ∧
    PyVal.pstr "abc" ≠ PyVal.pstr "" :=
  ⟨rfl, fun h => absurd (PyVal.pstr.inj h) (by decide)⟩

theorem normalize_get_preserved (q : PyDict) (f : String) (v : PyVal)
    (hf : ∀ r ∈ OLD_TO_NEW_KEYS, f ≠ r.1) (h : dictGet? q f = some v) :
    dictGet? (normalize_key_aliases q) f = some v := by
  unfold normalize_key_aliases
  by_cases hd : q.isEmpty
  · simp only [hd, if_true]
    exact h
  · simp only [hd, if_false, Bool.false_eq_true]
    exact foldl_alias_get_preserved _ _ _ _ hf h

theorem backfill_fold_get_preserved (fields : List String) (q : PyDict) (f : String)
    (v : PyVal) (h : dictGet? q f = some v) :
    dictGet? (fields.foldl (fun d g => if dictContains d g then d else dictSet d g (.pstr "")) q)
      f = some v := by
  induction fields generalizing q with
  | nil => exact h
  | cons g rest ih =>
    simp only [List.foldl_cons]
    by_cases hc : dictContains q g = true
    · rw [if_pos hc]
      exact ih q h
    · rw [if_neg hc]
      refine ih _ ?_
      have hg : g ≠ f := by
        intro hh
        subst hh
        unfold dictContains at hc
        rw [h] at hc
        simp at hc
      rw [dictGet?_set_ne q g f (.pstr "") (fun hh => hg hh.symm)]
      exact h

theorem backfill_get_preserved (q : PyDict) (f : String) (v : PyVal)
    (h : dictGet? q f = some v) : dictGet? (backfillFields q) f = some v :=
  backfill_fold_get_preserved HEADER_FIELDS q f v h

theorem topEmailStep_get_preserved (q : PyDict) (body f : String) (v : PyVal)
    (hv : dictGet? q f = some v) (hnb : pyStrip (pyStr v) ≠ "") :
    dictGet? (topEmailStep q body) f = some v := by
  by_cases hf : f = "Email do remetente (top-level)"
  · subst hf
    unfold topEmailStep
    rw [hv]
    simp only [Option.getD_some]
    rw [if_neg hnb]
    exact hv
  · rw [topEmailStep_get_ne q body f hf]
    exact hv

theorem supplierEmailStep_get_preserved (q : PyDict) (body f : String) (v : PyVal)
    (hv : dictGet? q f = some v) (hnb : pyStrip (pyStr v) ≠ "") :
    dictGet? (supplierEmailStep q body) f = some v := by
  by_cases hf : f = "Email do fornecedor"
  · subst hf
    unfold supplierEmailStep
    rw [hv]
    simp only [Option.getD_some]
    rw [if_neg hnb]
    exact hv
  · rw [supplierEmailStep_get_ne q body f hf]
    exact hv

/--
C5 (amended): the alias remap, the key backfill and the two email backfills
only fill absent or blank fields and never change a non-blank value; but
price coercion and description refinement rewrite their fields
unconditionally (the price is replaced by its coerced value, possibly the
empty string, and the description by the refined line).  Hence every
canonical field other than the price and the room description keeps any
non-blank value the LLM supplied, verbatim, through the whole pipeline.
-/
theorem enrich_preserves_other_nonblank_fields :
    ∀ (q : PyDict) (body f : String) (v : PyVal),
      f ∈ HEADER_FIELDS → f ≠ "Preço (num)" → f ≠ "Descrição dos Quartos" →
      dictGet? q f = some v → pyStrip (pyStr v) ≠ "" →
      dictGet? (enrich_and_validate_quote q body) f = some v := by
  intro q body f v hmem hp hd hv hnb
  unfold enrich_and_validate_quote
  have h1 : dictGet? (normalize_key_aliases q) f = some v := by
    refine normalize_get_preserved q f v ?_ hv
    have hall : ∀ g ∈ HEADER_FIELDS, ∀ r ∈ OLD_TO_NEW_KEYS, g ≠ r.1 := by decide
    exact hall f hmem
  have h2 : dictGet? (backfillFields (normalize_key_aliases q)) f = some v :=
    backfill_get_preserved _ f v h1
  have h3 : dictGet? (priceStep (backfillFields (normalize_key_aliases q))) f = some v := by
    unfold priceStep
    rw [dictGet?_set_ne _ _ _ _ hp]
    exact h2
  have h4 := topEmailStep_get_preserved _ body f v h3 hnb
  have h5 := supplierEmailStep_get_preserved _ body f v h4 hnb
  unfold descStep
  rw [dictGet?_set_ne _ _ _ _ hd]
  exact h5

/--
C5 witness: a concrete non-blank city value survives the whole enrichment
pipeline unchanged.
-/
theorem enrich_preserves_other_nonblank_fields_witness :
    dictGet? (enrich_and_validate_quote [("Cidade", PyVal.pstr "Rio")] "corpo") "Cidade" =
      some (PyVal.pstr "Rio") :=
  enrich_preserves_other_nonblank_fields [("Cidade", PyVal.pstr "Rio")] "corpo" "Cidade"
    (PyVal.pstr "Rio") (by decide) (by decide) (by decide) rfl (by decide)

/- === C8 === -/

/-- Every address a bucket holds has survived the domain filter. -/
def BucketsOk (acc : List String × List String) : Prop :=
  ∀ em, (em ∈ acc.1 ∨ em ∈ acc.2) → ignore_domains.contains (pyDomainOf em) = false

theorem buckets_inner_ok (line : String) (ems : List String)
    (acc : List String × List String) (h : BucketsOk acc) :
    BucketsOk (ems.foldl
      (fun acc2 em =>
        if ignore_domains.contains (pyDomainOf em) then acc2
        else if isPriorityLine line then (acc2.1 ++ [em], acc2.2)
        else (acc2.1, acc2.2 ++ [em]))
      acc) := by
  induction ems generalizing acc with
  | nil => exact h
  | cons em rest ih =>
    simp only [List.foldl_cons]
    refine ih _ ?_
    by_cases hig : ignore_domains.contains (pyDomainOf em) = true
    · rw [if_pos hig]
      exact h
    · rw [if_neg hig]
      have hig' : ignore_domains.contains (pyDomainOf em) = false := by
        cases hx : ignore_domains.contains (pyDomainOf em)
        · rfl
        · exact absurd hx hig
      by_cases hprio : isPriorityLine line = true
      · rw [if_pos hprio]
        intro x hx
        rcases hx with hx | hx
        · rcases List.mem_append.mp hx with hx | hx
          · exact h x (Or.inl hx)
          · rw [List.mem_singleton.mp hx]
            exact hig'
        · exact h x (Or.inr hx)
      · rw [if_neg hprio]
        intro x hx
        rcases hx with hx | hx
        · exact h x (Or.inl hx)
        · rcases List.mem_append.mp hx with hx | hx
          · exact h x (Or.inr hx)
          · rw [List.mem_singleton.mp hx]
            exact hig'

theorem supplier_buckets_ok (body : String) : BucketsOk (supplier_buckets body) := by
  unfold supplier_buckets
  generalize pySplitlines body = lines
  have base : BucketsOk (([], []) : List String × List String) := by
    intro em hem
    rcases hem with h | h <;> cases h
  generalize hacc : (([], []) : List String × List String) = acc at base ⊢
  clear hacc
  induction lines generalizing acc with
  | nil => exact base
  | cons line rest ih =>
    simp only [List.foldl_cons]
    exact ih _ (buckets_inner_ok line (emailFindall line) acc base)

/-- extract_supplier_email_heuristic written with default-valued heads. -/
theorem extract_supplier_eq (body : String) :
    extract_supplier_email_heuristic body =
      (supplier_buckets body).1.headD ((supplier_buckets body).2.headD "") := by
  show (match (supplier_buckets body).1 with
        | em :: _ => em
        | [] =>
          match (supplier_buckets body).2 with
          | em :: _ => em
          | [] => "") = _
  cases (supplier_buckets body).1 with
  | cons em t => rfl
  | nil =>
    cases (supplier_buckets body).2 with
    | cons em t => rfl
    | nil => rfl

/--
C8: supplier-email extraction never returns an address on an ignored domain
(when every address present is ignored the result is the empty string), and
it returns the first address collected from a from/to-prefixed line, else
the first address collected elsewhere, else the empty string.
-/
theorem supplier_email_never_ignored :
    (∀ body : String,
      extract_supplier_email_heuristic body = "" ∨
      ignore_domains.contains (pyDomainOf (extract_supplier_email_heuristic body)) = false) ∧
    (∀ body : String, (supplier_buckets body).1 ≠ [] →
      extract_supplier_email_heuristic body = (supplier_buckets body).1.headD "") ∧
    (∀ body : String, (supplier_buckets body).1 = [] → (supplier_buckets body).2 ≠ [] →
      extract_supplier_email_heuristic body = (supplier_buckets body).2.headD "") ∧
    (∀ body : String, (supplier_buckets body).1 = [] → (supplier_buckets body).2 = [] →
      extract_supplier_email_heuristic body = "") := by
  have hok := supplier_buckets_ok
  refine ⟨fun body => ?_, fun body h1 => ?_, fun body h1 h2 => ?_, fun body h1 h2 => ?_⟩
  · rw [extract_supplier_eq]
    cases hp : (supplier_buckets body).1 with
    | cons em t =>
      refine Or.inr (hok body em (Or.inl ?_))
      rw [hp]
      exact List.mem_cons_self em t
    | nil =>
      cases hr : (supplier_buckets body).2 with
      | cons em t =>
        refine Or.inr (hok body em (Or.inr ?_))
        rw [hr]
        exact List.mem_cons_self em t
      | nil => exact Or.inl rfl
  · rw [extract_supplier_eq]
    cases hp : (supplier_buckets body).1 with
    | cons em t => rfl
    | nil => exact absurd hp h1
  · rw [extract_supplier_eq, h1]
    rfl
  · rw [extract_supplier_eq, h1, h2]
    rfl

/--
C8 witness: a body whose only address is on the company domain resolves to
the empty supplier email, and a body with an address on a to-prefixed line
returns that address.
-/
theorem supplier_email_never_ignored_witness :
    extract_supplier_email_heuristic "from: a@parrottrips.com" = "" ∧
    extract_supplier_email_heuristic "to: x@hotel.com" = "x@hotel.com" := by
  constructor
  · exact supplier_email_never_ignored.2.2.2 "from: a@parrottrips.com" (by decide) (by decide)
  · have h := supplier_email_never_ignored.2.1 "to: x@hotel.com" (by decide)
    rw [h]
    decide

/- === C10 === -/

theorem isDigit_bounds {c : Char} (h : c.isDigit = true) :
    48 ≤ c.toNat ∧ c.toNat ≤ 57 := by
  simp [Char.isDigit] at h
  exact ⟨h.1, h.2⟩

theorem digit_ne_char {c : Char} (h : c.isDigit = true) (d : Char)
    (hd : d.toNat < 48 ∨ 57 < d.toNat) : ¬(c = d) := by
  have hb := isDigit_bounds h
  intro hh
  subst hh
  omega

theorem digit_not_space {c : Char} (h : c.isDigit = true) : pyIsSpace c = false := by
  have hb := isDigit_bounds h
  simp [pyIsSpace]
  omega

theorem digit_not_linebreak {c : Char} (h : c.isDigit = true) : pyIsLineBreak c = false := by
  have hb := isDigit_bounds h
  simp [pyIsLineBreak]
  omega

theorem digit_word {c : Char} (h : c.isDigit = true) : isWordChar c = true := by
  simp [isWordChar, Char.isAlphanum, h]

theorem takeWhile_all {p : Char → Bool} : ∀ (cs : List Char), (∀ c ∈ cs, p c = true) →
    cs.takeWhile p = cs := by
  intro cs h
  induction cs with
  | nil => rfl
  | cons c t ih =>
    simp only [List.takeWhile_cons, h c (by simp), if_true]
    rw [ih (fun d hd => h d (by simp [hd]))]

theorem dropWhile_all {p : Char → Bool} : ∀ (cs : List Char), (∀ c ∈ cs, p c = true) →
    cs.dropWhile p = [] := by
  intro cs h
  induction cs with
  | nil => rfl
  | cons c t ih =>
    rw [List.dropWhile_cons, h c (by simp)]
    simp only [if_true]
    exact ih (fun d hd => h d (by simp [hd]))

theorem dropWhile_head_false {p : Char → Bool} (cs : List Char)
    (h : ∀ c ∈ cs.head?, p c = false) : cs.dropWhile p = cs := by
  cases cs with
  | nil => rfl
  | cons c t =>
    rw [List.dropWhile_cons, h c rfl]
    simp

theorem strip_all_digits (cs : List Char) (h : ∀ c ∈ cs, c.isDigit = true) :
    stripBothList pyIsSpace cs = cs := by
  unfold stripBothList
  rw [dropWhile_head_false cs, dropWhile_head_false cs.reverse, List.reverse_reverse]
  · intro c hc
    cases hr : cs.reverse.head? with
    | none => simp [hr] at hc
    | some d =>
      rw [hr] at hc
      cases hc
      exact digit_not_space (h c (List.mem_reverse.mp (List.mem_of_mem_head? (by rw [hr]; rfl))))
  · intro c hc
    cases hr : cs.head? with
    | none => simp [hr] at hc
    | some d =>
      rw [hr] at hc
      cases hc
      exact digit_not_space (h c (List.mem_of_mem_head? (by rw [hr]; rfl)))

theorem pyStrip_digits (s : String) (h : ∀ c ∈ s.data, c.isDigit = true) :
    pyStrip s = s := by
  unfold pyStrip
  rw [strip_all_digits s.data h]

theorem dotGroups_cons_not_dot (c : Char) (rest : List Char) (h : ¬(c = '.')) :
    dotGroups (c :: rest) = 0 := by
  rw [dotGroups.eq_def]
  split
  · rename_i heq
    rw [List.cons.injEq] at heq
    exact absurd heq.1 h
  · rfl

theorem boundaryAfterDigit_cons_digit (c : Char) (r : List Char) (h : c.isDigit = true) :
    boundaryAfterDigit (c :: r) = false := by
  unfold boundaryAfterDigit
  simp [digit_word h]

theorem commaTail_nil (pos : Nat) : commaTail [] pos = some pos := rfl

theorem commaTail_cons_digit (c : Char) (r2 : List Char) (pos : Nat)
    (h : c.isDigit = true) : commaTail (c :: r2) pos = none := by
  rw [commaTail.eq_def]
  split
  · rename_i heq
    rw [List.cons.injEq] at heq
    exact absurd heq.1 (digit_ne_char h ',' (by decide))
  · rw [boundaryAfterDigit_cons_digit c r2 h]
    rfl

theorem dotGroups_digits (cs : List Char) (h : ∀ c ∈ cs, c.isDigit = true) :
    dotGroups cs = 0 := by
  cases cs with
  | nil => rfl
  | cons c t => exact dotGroups_cons_not_dot c t (digit_ne_char (h c (by simp)) '.' (by decide))

theorem commaTail_digits (cs : List Char) (pos : Nat) (h : ∀ c ∈ cs, c.isDigit = true) :
    commaTail cs pos = if cs = [] then some pos else none := by
  cases cs with
  | nil => rfl
  | cons c t => simp [commaTail_cons_digit c t pos (h c (by simp))]

theorem alt3_digits (cs : List Char) (h : ∀ c ∈ cs, c.isDigit = true) :
    alt3 false cs = if 1 ≤ cs.length ∧ cs.length ≤ 3 then some cs.length else none := by
  have hdrop : ∀ n : Nat, ∀ c ∈ cs.drop n, c.isDigit = true :=
    fun n c hc => h c (List.mem_of_mem_drop hc)
  have hgo : ∀ n : Nat, alt3Go cs n (dotGroups (cs.drop n)) =
      if cs.length ≤ n then some n else none := by
    intro n
    rw [dotGroups_digits _ (hdrop n)]
    show commaTail (cs.drop n) n = _
    rw [commaTail_digits _ n (hdrop n)]
    by_cases hnil : cs.drop n = []
    · rw [if_pos hnil, if_pos (List.drop_eq_nil_iff.mp hnil)]
    · rw [if_neg hnil, if_neg (fun hh => hnil (List.drop_eq_nil_iff.mpr hh))]
  show (let d := (cs.takeWhile Char.isDigit).length
        let tryN := fun (n : Nat) => if n ≤ d then alt3Go cs n (dotGroups (cs.drop n)) else none
        match tryN 3 with
        | some L => some L
        | none =>
          match tryN 2 with
          | some L => some L
          | none => tryN 1) = _
  rw [takeWhile_all cs h]
  simp only []
  by_cases h3 : 3 ≤ cs.length
  · rw [if_pos h3, hgo 3]
    by_cases he3 : cs.length ≤ 3
    · have : cs.length = 3 := by omega
      rw [if_pos he3]
      simp [this]
    · rw [if_neg he3]
      rw [if_pos (by omega), hgo 2, if_neg (by omega), if_pos (by omega), hgo 1,
          if_neg (by omega), if_neg (by omega)]
  · rw [if_neg h3]
    by_cases h2 : 2 ≤ cs.length
    · have : cs.length = 2 := by omega
      rw [if_pos (by omega), hgo 2, if_pos (by omega)]
      simp [this]
    · by_cases h1 : 1 ≤ cs.length
      · have : cs.length = 1 := by omega
        rw [if_neg (by omega), if_pos (by omega), hgo 1, if_pos (by omega)]
        simp [this]
      · rw [if_neg (by omega), if_neg (by omega), if_neg (by omega)]

theorem priceMatchAt_digit_head (prev : Bool) (c : Char) (rest : List Char)
    (h : c.isDigit = true) : priceMatchAt prev (c :: rest) = alt3 prev (c :: rest) := by
  have hR := digit_ne_char h 'R' (by decide)
  have hr := digit_ne_char h 'r' (by decide)
  have hS := digit_ne_char h '$' (by decide)
  rw [priceMatchAt.eq_def]
  simp [hR, hr, hS, h]

theorem priceSubCore_digits_interior : ∀ (cs : List Char) (fuel : Nat), cs.length ≤ fuel →
    (∀ c ∈ cs, c.isDigit = true) → priceSubCore fuel true cs = cs := by
  intro cs
  induction cs with
  | nil =>
    intro fuel _ _
    cases fuel <;> rfl
  | cons c t ih =>
    intro fuel hf h
    cases fuel with
    | zero => simp at hf
    | succ m =>
      have hm : priceMatchAt true (c :: t) = none := by
        rw [priceMatchAt_digit_head true c t (h c (by simp))]
        rfl
      show (match priceMatchAt true (c :: t) with
            | some L => priceSubCore m (isWordChar ((c :: t).getD (L - 1) ' ')) ((c :: t).drop L)
            | none => c :: priceSubCore m (isWordChar c) t) = c :: t
      rw [hm, digit_word (h c (by simp)),
          ih m (by simpa using hf) (fun d hd => h d (by simp [hd]))]

theorem priceSubCore_digits_short (cs : List Char) (h1 : 1 ≤ cs.length)
    (h3 : cs.length ≤ 3) (h : ∀ c ∈ cs, c.isDigit = true) :
    priceSubCore (cs.length + 1) false cs = [] := by
  cases cs with
  | nil => simp at h1
  | cons c t =>
    have hm : priceMatchAt false (c :: t) = some (c :: t).length := by
      rw [priceMatchAt_digit_head false c t (h c (by simp)), alt3_digits _ h,
          if_pos ⟨h1, h3⟩]
    show (match priceMatchAt false (c :: t) with
          | some L => priceSubCore (c :: t).length (isWordChar ((c :: t).getD (L - 1) ' ')) ((c :: t).drop L)
          | none => c :: priceSubCore (c :: t).length (isWordChar c) t) = []
    rw [hm]
    dsimp only
    rw [List.drop_length]
    show priceSubCore (t.length + 1) _ [] = []
    rfl

theorem priceSubCore_digits_long (cs : List Char) (h4 : 4 ≤ cs.length)
    (h : ∀ c ∈ cs, c.isDigit = true) :
    priceSubCore (cs.length + 1) false cs = cs := by
  match cs, h4 with
  | a :: b :: c :: d :: t, _ =>
    have hm : priceMatchAt false (a :: b :: c :: d :: t) = none := by
      rw [priceMatchAt_digit_head false a _ (h a (by simp)), alt3_digits _ h,
          if_neg (by simp)]
    show (match priceMatchAt false (a :: b :: c :: d :: t) with
          | some L => priceSubCore (a :: b :: c :: d :: t).length
              (isWordChar ((a :: b :: c :: d :: t).getD (L - 1) ' '))
              ((a :: b :: c :: d :: t).drop L)
          | none => a :: priceSubCore (a :: b :: c :: d :: t).length (isWordChar a)
              (b :: c :: d :: t)) = _
    rw [hm]
    dsimp only
    rw [digit_word (h a (by simp)),
        priceSubCore_digits_interior (b :: c :: d :: t) _ (by simp)
          (fun x hx => h x (by simp at hx ⊢; tauto))]

theorem collapseWs_digits : ∀ (cs : List Char) (fuel : Nat), cs.length ≤ fuel →
    (∀ c ∈ cs, c.isDigit = true) → collapseWsCore fuel cs = cs := by
  intro cs
  induction cs with
  | nil =>
    intro fuel _ _
    cases fuel <;> rfl
  | cons c t ih =>
    intro fuel hf h
    cases fuel with
    | zero => simp at hf
    | succ m =>
      show (if pyIsSpace c = true then _ else c :: collapseWsCore m t) = c :: t
      rw [if_neg (by rw [digit_not_space (h c (by simp))]; exact Bool.false_ne_true),
          ih m (by simpa using hf) (fun d hd => h d (by simp [hd]))]

theorem splitlinesCore_digits : ∀ (cs : List Char) (acc : List Char),
    (∀ c ∈ cs, c.isDigit = true) → (acc ≠ [] ∨ cs ≠ []) →
    splitlinesCore cs acc = [String.mk (acc.reverse ++ cs)] := by
  intro cs
  induction cs with
  | nil =>
    intro acc _ hne
    have hacc : acc ≠ [] := by tauto
    show (if acc.isEmpty then [] else [String.mk acc.reverse]) = _
    rw [if_neg (by simpa [List.isEmpty_iff] using hacc)]
    simp
  | cons c t ih =>
    intro acc h hne
    rw [splitlinesCore.eq_def]
    split
    · rename_i heq
      exact absurd heq (by simp)
    · rename_i heq
      exfalso
      rw [List.cons.injEq] at heq
      exact digit_ne_char (h c (by simp)) '\r' (by decide) heq.1
    · rename_i acc2 u1 u2 c2 rest2 hfun heq
      rw [List.cons.injEq] at heq
      obtain ⟨h1, h2⟩ := heq
      subst h1
      subst h2
      rw [if_neg (by rw [digit_not_linebreak (h c (by simp))]; exact Bool.false_ne_true)]
      rw [ih (c :: acc2) (fun d hd => h d (by simp [hd])) (Or.inl (by simp))]
      simp

theorem pyRstrip_digits (s : String) (h : ∀ c ∈ s.data, c.isDigit = true) :
    pyRstrip s = s := by
  unfold pyRstrip
  rw [dropWhile_head_false s.data.reverse (fun c hc => by
    cases hr : s.data.reverse.head? with
    | none => simp [hr] at hc
    | some d =>
      rw [hr] at hc
      cases hc
      exact digit_not_space (h c (List.mem_reverse.mp (List.mem_of_mem_head? (by rw [hr]; rfl)))))]
  rw [List.reverse_reverse]

theorem data_ne_nil_of_ne_empty (s : String) (h : s ≠ "") : s.data ≠ [] := by
  intro hd
  exact h (by cases s; simp_all)

theorem strip_price_tokens_digits_short (s : String) (hne : s ≠ "")
    (hlen : s.data.length ≤ 3) (h : ∀ c ∈ s.data, c.isDigit = true) :
    strip_price_tokens s = "" := by
  unfold strip_price_tokens
  rw [if_neg (by rw [pyStrip_digits s h]; exact hne)]
  have hpos : 1 ≤ s.data.length := by
    have := data_ne_nil_of_ne_empty s hne
    cases hd : s.data
    · exact absurd hd this
    · simp [hd]
  have h1 : stripPriceRegexSub s = String.mk [] := by
    unfold stripPriceRegexSub
    rw [priceSubCore_digits_short s.data hpos hlen h]
  rw [h1]
  rfl

theorem strip_price_tokens_digits_long (s : String) (h4 : 4 ≤ s.data.length)
    (h : ∀ c ∈ s.data, c.isDigit = true) :
    strip_price_tokens s = s := by
  unfold strip_price_tokens
  have hne : s ≠ "" := by
    intro hh
    subst hh
    simp at h4
  rw [if_neg (by rw [pyStrip_digits s h]; exact hne)]
  have h1 : stripPriceRegexSub s = s := by
    unfold stripPriceRegexSub
    rw [priceSubCore_digits_long s.data h4 h]
  rw [h1]
  dsimp only
  have h2 : collapseWsCore (s.data.length + 1) s.data = s.data :=
    collapseWs_digits s.data (s.data.length + 1) (by omega) h
  rw [h2]
  have hmk : String.mk s.data = s := rfl
  rw [hmk]
  have h3 : pySplitlines s = [s] := by
    unfold pySplitlines
    rw [splitlinesCore_digits s.data [] h (Or.inr (data_ne_nil_of_ne_empty s hne))]
    simp
  rw [h3]
  show pyStrip (String.intercalate "\n" [pyRstrip s]) = s
  rw [pyRstrip_digits s h]
  have h5 : String.intercalate "\n" [s] = s := rfl
  rw [h5]
  exact pyStrip_digits s h

/--
C10: the bare-number alternative of the price-token pattern makes the
thousands groups and the comma decimals optional, so strip_price_tokens
deletes every standalone run of one to three ASCII digits even when it is
not a price (the bed count in the description of three single beds and the
area figure both disappear), while a standalone run of four or more digits
without grouping separators is left unchanged.
-/
theorem strip_price_tokens_token_claims :
    strip_price_tokens "3 solteiros" = "solteiros" ∧
    strip_price_tokens "25 m²" = "m²" ∧
    (∀ s : String, s ≠ "" → s.data.length ≤ 3 → (∀ c ∈ s.data, c.isDigit = true) →
      strip_price_tokens s = "") ∧
    (∀ s : String, 4 ≤ s.data.length → (∀ c ∈ s.data, c.isDigit = true) →
      strip_price_tokens s = s) :=
  ⟨rfl, rfl, strip_price_tokens_digits_short, strip_price_tokens_digits_long⟩

/--
C10 witness: the standalone two-digit token 12 is deleted and the
five-digit token 12345 is kept.
-/
theorem strip_price_tokens_token_claims_witness :
    strip_price_tokens "12" = "" ∧ strip_price_tokens "12345" = "12345" :=
  ⟨strip_price_tokens_token_claims.2.2.1 "12" (by decide) (by decide) (by decide),
   strip_price_tokens_token_claims.2.2.2 "12345" (by decide) (by decide)⟩

theorem findIdx?_concat_mid (pre s suf : List Char) (p : Char → Bool)
    (hpre : ∀ c ∈ pre, p c = false) (i : Nat) (hs : s.findIdx? p = some i) :
    (pre ++ s ++ suf).findIdx? p = some (pre.length + i) := by
  rw [List.append_assoc, List.findIdx?_append, List.findIdx?_eq_none_iff.mpr hpre]
  rw [List.findIdx?_append, hs]
  simp [Nat.add_comm]

theorem findIdx?_lt_length {cs : List Char} {p : Char → Bool} {i : Nat}
    (h : cs.findIdx? p = some i) : i < cs.length :=
  (List.findIdx?_eq_some_iff_findIdx_eq.mp h).1

theorem strFindChar_concat (pre s suf : String) (c : Char)
    (hpre : ∀ d ∈ pre.data, ¬(d = c)) (i : Nat) (hs : strFindChar? s c = some i) :
    strFindChar? (pre ++ s ++ suf) c = some (pre.data.length + i) := by
  unfold strFindChar? at hs ⊢
  show (pre.data ++ s.data ++ suf.data).findIdx? (fun d => d = c) = _
  exact findIdx?_concat_mid pre.data s.data suf.data _
    (fun d hd => by simpa using hpre d hd) i hs

theorem strRfindChar_concat (pre s suf : String) (c : Char)
    (hsuf : ∀ d ∈ suf.data, ¬(d = c)) (i : Nat) (hs : strRfindChar? s c = some i) :
    strRfindChar? (pre ++ s ++ suf) c = some (pre.data.length + i) := by
  unfold strRfindChar? at hs ⊢
  obtain ⟨j, hj, hji⟩ : ∃ j, s.data.reverse.findIdx? (fun d => d = c) = some j ∧
      s.data.length - 1 - j = i := by
    cases hfj : s.data.reverse.findIdx? (fun d => d = c) with
    | none => rw [hfj] at hs; simp at hs
    | some j =>
      rw [hfj] at hs
      simp at hs
      exact ⟨j, rfl, hs⟩
  have hjlt : j < s.data.length := by
    have := findIdx?_lt_length hj
    simpa using this
  have hrev : (pre ++ s ++ suf).data.reverse =
      suf.data.reverse ++ s.data.reverse ++ pre.data.reverse := by
    show (pre.data ++ s.data ++ suf.data).reverse = _
    simp [List.reverse_append]
  rw [hrev]
  rw [findIdx?_concat_mid _ _ _ _
    (fun d hd => by simpa using hsuf d (List.mem_reverse.mp hd)) j hj]
  have hlen : (pre ++ s ++ suf).data.length =
      pre.data.length + s.data.length + suf.data.length := by
    show (pre.data ++ s.data ++ suf.data).length = _
    simp
    omega
  simp only [Option.map_some']
  rw [hlen]
  congr 1
  simp only [List.length_reverse]
  omega

theorem strRfind_lt {s : String} {c : Char} {i : Nat}
    (h : strRfindChar? s c = some i) : i < s.data.length := by
  unfold strRfindChar? at h
  cases hf : s.data.reverse.findIdx? (fun d => d = c) with
  | none => rw [hf] at h; simp at h
  | some j =>
    rw [hf] at h
    simp at h
    have hj := findIdx?_lt_length hf
    simp at hj
    have hsl : s.length = s.data.length := rfl
    omega

theorem sanitize_concat (pre s suf : String)
    (hpre : ∀ d ∈ pre.data, ¬(d = '[')) (hsuf : ∀ d ∈ suf.data, ¬(d = ']'))
    (st en : Nat) (hst : strFindChar? s '[' = some st)
    (hen : strRfindChar? s ']' = some en) (hle : st ≤ en) :
    sanitize_json_only (pre ++ s ++ suf) = sanitize_json_only s := by
  have hen_lt : en < s.data.length := strRfind_lt hen
  unfold sanitize_json_only
  rw [hst, hen, strFindChar_concat pre s suf '[' hpre st hst,
      strRfindChar_concat pre s suf ']' hsuf en hen]
  dsimp only
  rw [if_neg (by omega), if_neg (by omega)]
  unfold pySlice
  show String.mk (((pre.data ++ s.data ++ suf.data).drop (pre.data.length + st)).take
      (pre.data.length + en + 1 - (pre.data.length + st))) = _
  congr 1
  have harith : pre.data.length + en + 1 - (pre.data.length + st) = en + 1 - st := by omega
  rw [harith, List.append_assoc, List.drop_append,
      List.drop_append_of_le_length (by omega),
      List.take_append_of_le_length (by
        have hsl : s.length = s.data.length := rfl
        simp
        omega)]

theorem llmCleaned_concat (pre s suf : String)
    (hpre : ∀ d ∈ pre.data, ¬(d = '[')) (hsuf : ∀ d ∈ suf.data, ¬(d = ']'))
    (st en : Nat) (hst : strFindChar? s '[' = some st)
    (hen : strRfindChar? s ']' = some en) (hle : st ≤ en) :
    llmCleaned (pre ++ s ++ suf) = llmCleaned s := by
  unfold llmCleaned
  rw [sanitize_concat pre s suf hpre hsuf st en hst hen hle]

/-- C4 counterexample: the text of a single bare JSON object does not, in
general, parse to the one-element list containing that object.  For the
object text with key "a" and value [1], sanitize_json_only carves out the
inner bracket span "[1]", json.loads yields the list [1], and filtering to
dict-shaped elements leaves the empty list, not the one-element list
containing the object. -/
theorem parse_llm_bare_object_counterexample :
    parse_llm_to_list "\x7b\"a\": [1]\x7d" = Except.ok [] ∧
    ¬(parse_llm_to_list "\x7b\"a\": [1]\x7d" =
        Except.ok [[("a", PyVal.plist [PyVal.pint 1])]]) := by
  constructor
  · rfl
  · intro h
    rw [show parse_llm_to_list "\x7b\"a\": [1]\x7d" = Except.ok [] from rfl] at h
    injection h with h2
    exact List.noConfusion h2


/-- The candidate lines refine_description_for_quote scores: sanitize the
block, then split into chunks. -/
def refineLines (block : String) : List String :=
  _line_split_chunks (_remove_hotel_wide_info (strip_price_tokens block))

theorem tupleLt_iff (a b : Int × Int × String) :
    tupleLt a b = true ↔
      (a.1 < b.1 ∨ (a.1 = b.1 ∧ (a.2.1 < b.2.1 ∨ (a.2.1 = b.2.1 ∧ a.2.2 < b.2.2)))) := by
  simp [tupleLt]

theorem tupleLt_trans {a b c : Int × Int × String}
    (h1 : tupleLt a b = true) (h2 : tupleLt b c = true) : tupleLt a c = true := by
  rw [tupleLt_iff] at h1 h2 ⊢
  rcases h1 with h1 | ⟨e1, h1⟩ <;> rcases h2 with h2 | ⟨e2, h2⟩
  · exact Or.inl (by omega)
  · exact Or.inl (by omega)
  · exact Or.inl (by omega)
  · refine Or.inr ⟨by omega, ?_⟩
    rcases h1 with h1 | ⟨f1, h1⟩ <;> rcases h2 with h2 | ⟨f2, h2⟩
    · exact Or.inl (by omega)
    · exact Or.inl (by omega)
    · exact Or.inl (by omega)
    · exact Or.inr ⟨by omega, lt_trans h1 h2⟩

theorem tupleLt_irrefl (a : Int × Int × String) : tupleLt a a = false := by
  by_contra hc
  rw [Bool.not_eq_false, tupleLt_iff] at hc
  rcases hc with h | ⟨_, h | ⟨_, h⟩⟩
  · omega
  · omega
  · exact absurd h (lt_irrefl _)

theorem tupleLt_total {a b : Int × Int × String}
    (h : tupleLt a b = false) : tupleLt b a = true ∨ a = b := by
  have hne : ¬(a.1 < b.1 ∨ (a.1 = b.1 ∧ (a.2.1 < b.2.1 ∨ (a.2.1 = b.2.1 ∧ a.2.2 < b.2.2)))) := by
    intro hp
    rw [(tupleLt_iff a b).mpr hp] at h
    exact Bool.noConfusion h
  push_neg at hne
  rcases lt_trichotomy a.1 b.1 with h1 | h1 | h1
  · exact absurd h1 (not_lt.mpr hne.1)
  · have hne2 := hne.2 h1
    rcases lt_trichotomy a.2.1 b.2.1 with h2 | h2 | h2
    · exact absurd h2 (not_lt.mpr hne2.1)
    · have hne3 := hne2.2 h2
      rcases lt_trichotomy a.2.2 b.2.2 with h3 | h3 | h3
      · exact absurd h3 (not_lt.mpr hne3)
      · refine Or.inr ?_
        obtain ⟨a1, a2, a3⟩ := a
        obtain ⟨b1, b2, b3⟩ := b
        simp only at h1 h2 h3
        rw [h1, h2, h3]
      · exact Or.inl ((tupleLt_iff b a).mpr (Or.inr ⟨h1.symm, Or.inr ⟨h2.symm, h3⟩⟩))
    · exact Or.inl ((tupleLt_iff b a).mpr (Or.inr ⟨h1.symm, Or.inl h2⟩))
  · exact Or.inl ((tupleLt_iff b a).mpr (Or.inl h1))

theorem maxTriple_mem (x : Int × Int × String) (l : List (Int × Int × String)) :
    maxTriple x l ∈ x :: l := by
  induction l generalizing x with
  | nil => exact List.mem_cons_self _ _
  | cons y ys ih =>
    have hstep : maxTriple x (y :: ys) = maxTriple (if tupleLt x y then y else x) ys := rfl
    rw [hstep]
    have hm := ih (if tupleLt x y then y else x)
    rcases List.mem_cons.mp hm with he | hmem
    · rw [he]
      split
      · exact List.mem_cons_of_mem x (List.mem_cons_self y ys)
      · exact List.mem_cons_self _ _
    · exact List.mem_cons_of_mem x (List.mem_cons_of_mem y hmem)

theorem maxTriple_ge (x : Int × Int × String) (l : List (Int × Int × String)) :
    ∀ u, u ∈ x :: l → tupleLt (maxTriple x l) u = false := by
  induction l generalizing x with
  | nil =>
    intro u hu
    rcases List.mem_cons.mp hu with he | hmem
    · rw [he]; exact tupleLt_irrefl x
    · exact absurd hmem (List.not_mem_nil u)
  | cons y ys ih =>
    intro u hu
    have hstep : maxTriple x (y :: ys) = maxTriple (if tupleLt x y then y else x) ys := rfl
    rw [hstep]
    rcases List.mem_cons.mp hu with he | hu2
    · by_cases hxy : tupleLt x y = true
      · rw [if_pos hxy, he]
        by_contra hc
        rw [Bool.not_eq_false] at hc
        have h2 := tupleLt_trans hc hxy
        rw [ih y y (List.mem_cons_self y ys)] at h2
        exact Bool.noConfusion h2
      · rw [if_neg hxy, he]
        exact ih x x (List.mem_cons_self x ys)
    · rcases List.mem_cons.mp hu2 with he | hu3
      · by_cases hxy : tupleLt x y = true
        · rw [if_pos hxy, he]
          exact ih y y (List.mem_cons_self y ys)
        · rw [if_neg hxy, he]
          have hxx := ih x x (List.mem_cons_self x ys)
          have hxyF : tupleLt x y = false := by
            cases hv : tupleLt x y with
            | false => rfl
            | true => exact absurd hv hxy
          rcases tupleLt_total hxyF with hyx | heq
          · by_contra hc
            rw [Bool.not_eq_false] at hc
            have h2 := tupleLt_trans hc hyx
            rw [hxx] at h2
            exact Bool.noConfusion h2
          · rw [← heq]
            exact hxx
      · by_cases hxy : tupleLt x y = true
        · rw [if_pos hxy]
          exact ih y u (List.mem_cons_of_mem y hu3)
        · rw [if_neg hxy]
          exact ih x u (List.mem_cons_of_mem x hu3)

theorem refineScored_snd_len {lines : List String} {categoria cfg : String}
    {v : Int × Int × String} (hv : v ∈ refineScored lines categoria cfg) :
    v.2.1 = -(v.2.2.length : Int) := by
  unfold refineScored at hv
  rw [List.mem_filterMap] at hv
  obtain ⟨ln, _, hf⟩ := hv
  dsimp only at hf
  by_cases h1 : pyStrip ln = ""
  · rw [if_pos h1] at hf
    exact Option.noConfusion hf
  · rw [if_neg h1] at hf
    by_cases h2 : 0 < _category_match_score ln categoria * 3 + _config_match_score ln cfg
    · rw [if_pos h2] at hf
      injection hf with hf2
      rw [← hf2]
    · rw [if_neg h2] at hf
      exact Option.noConfusion hf

theorem refineOnlyCat_snd_len {lines : List String} {categoria : String}
    {v : Int × Int × String} (hv : v ∈ refineOnlyCat lines categoria) :
    v.2.1 = -(v.2.2.length : Int) := by
  unfold refineOnlyCat at hv
  rw [List.mem_filterMap] at hv
  obtain ⟨ln, _, hf⟩ := hv
  dsimp only at hf
  by_cases h2 : 0 < _category_match_score ln categoria
  · rw [if_pos h2] at hf
    injection hf with hf2
    rw [← hf2]
  · rw [if_neg h2] at hf
    exact Option.noConfusion hf

theorem refine_eq_of_ne (block categoria cfg : String) (hb : ¬(block = "")) :
    refine_description_for_quote block categoria cfg =
      (if (refineLines block).isEmpty then ""
       else
         match refineScored (refineLines block) categoria cfg with
         | t :: ts => pyStrip (maxTriple t ts).2.2
         | [] =>
           match refineOnlyCat (refineLines block) categoria with
           | t :: ts => pyStrip (maxTriple t ts).2.2
           | [] =>
             if pyStrip categoria ≠ "" ∧ pyStrip cfg ≠ "" then
               pyStrip categoria ++ ": " ++ pyStrip cfg
             else if pyStrip categoria ≠ "" then pyStrip categoria
             else if pyStrip cfg ≠ "" then pyStrip cfg
             else "") := by
  unfold refine_description_for_quote refineLines
  rw [if_neg hb]

/-- What refine_description_for_quote returns, stated against the scored
candidate lists: the empty string when no candidate lines survive; otherwise
the stripped line of a maximal scored triple, maximality meaning no other
candidate beats it in the lexicographic order on (total score, negated
length, line) — so the highest total wins and a tie on total goes to the
SHORTER line; the category-only fallback obeys the same rule; and when both
candidate lists are empty the synthesized short description is returned. -/
def RefineBestLine (block categoria cfg : String) : Prop :=
  (refineLines block = [] → refine_description_for_quote block categoria cfg = "") ∧
  (∀ t ts, refineScored (refineLines block) categoria cfg = t :: ts →
    ∃ m, m ∈ refineScored (refineLines block) categoria cfg ∧
      refine_description_for_quote block categoria cfg = pyStrip m.2.2 ∧
      ∀ u, u ∈ refineScored (refineLines block) categoria cfg →
        tupleLt m u = false ∧ u.1 ≤ m.1 ∧ (u.1 = m.1 → m.2.2.length ≤ u.2.2.length)) ∧
  (refineScored (refineLines block) categoria cfg = [] →
    ∀ t ts, refineOnlyCat (refineLines block) categoria = t :: ts →
    ∃ m, m ∈ refineOnlyCat (refineLines block) categoria ∧
      refine_description_for_quote block categoria cfg = pyStrip m.2.2 ∧
      ∀ u, u ∈ refineOnlyCat (refineLines block) categoria →
        tupleLt m u = false ∧ u.1 ≤ m.1 ∧ (u.1 = m.1 → m.2.2.length ≤ u.2.2.length)) ∧
  (¬(refineLines block = []) →
    refineScored (refineLines block) categoria cfg = [] →
    refineOnlyCat (refineLines block) categoria = [] →
    refine_description_for_quote block categoria cfg =
      (if pyStrip categoria ≠ "" ∧ pyStrip cfg ≠ "" then
         pyStrip categoria ++ ": " ++ pyStrip cfg
       else if pyStrip categoria ≠ "" then pyStrip categoria
       else if pyStrip cfg ≠ "" then pyStrip cfg
       else ""))

/-- C3, amended: for every non-empty description block the refiner returns
the stripped candidate line whose triple (total score, negated length, line)
is maximal: ties on the total score are broken by the SHORTER line (the
sort key stores the negated length), not the longer one claimed by the
spec; the category-only fallback and the final synthesis behave as
claimed. -/
theorem refine_description_best_line (block categoria cfg : String)
    (hb : ¬(block = "")) : RefineBestLine block categoria cfg := by
  have hisEmpty : ∀ a : String, ∀ as : List String,
      refineLines block = a :: as → (refineLines block).isEmpty = false := by
    intro a as h
    rw [h]
    rfl
  refine ⟨?_, ?_, ?_, ?_⟩
  · intro h0
    rw [refine_eq_of_ne block categoria cfg hb, h0]
    rfl
  · intro t ts hs
    have hlines : ¬(refineLines block = []) := by
      intro h0
      rw [h0] at hs
      exact List.noConfusion hs
    obtain ⟨a, as, hl⟩ : ∃ a as, refineLines block = a :: as := by
      cases hl : refineLines block with
      | nil => exact absurd hl hlines
      | cons a as => exact ⟨a, as, rfl⟩
    refine ⟨maxTriple t ts, ?_, ?_, ?_⟩
    · rw [hs]
      exact maxTriple_mem t ts
    · rw [refine_eq_of_ne block categoria cfg hb,
          if_neg (by rw [hisEmpty a as hl]; exact Bool.noConfusion), hs]
    · intro u hu
      rw [hs] at hu
      have hge := maxTriple_ge t ts u hu
      have hmm : maxTriple t ts ∈ refineScored (refineLines block) categoria cfg := by
        rw [hs]
        exact maxTriple_mem t ts
      have hml := refineScored_snd_len hmm
      have hul := refineScored_snd_len (by rw [hs]; exact hu)
      have hnp : ¬((maxTriple t ts).1 < u.1 ∨ ((maxTriple t ts).1 = u.1 ∧
          ((maxTriple t ts).2.1 < u.2.1 ∨ ((maxTriple t ts).2.1 = u.2.1 ∧
            (maxTriple t ts).2.2 < u.2.2)))) := by
        intro hp
        rw [(tupleLt_iff (maxTriple t ts) u).mpr hp] at hge
        exact Bool.noConfusion hge
      push_neg at hnp
      refine ⟨hge, not_lt.mp (fun hlt => absurd hnp.1 (not_le.mpr hlt)), ?_⟩
      intro he
      have h2 := (hnp.2 he.symm).1
      omega
  · intro hsc t ts hs
    have hlines : ¬(refineLines block = []) := by
      intro h0
      rw [h0] at hs
      exact List.noConfusion hs
    obtain ⟨a, as, hl⟩ : ∃ a as, refineLines block = a :: as := by
      cases hl : refineLines block with
      | nil => exact absurd hl hlines
      | cons a as => exact ⟨a, as, rfl⟩
    refine ⟨maxTriple t ts, ?_, ?_, ?_⟩
    · rw [hs]
      exact maxTriple_mem t ts
    · rw [refine_eq_of_ne block categoria cfg hb,
          if_neg (by rw [hisEmpty a as hl]; exact Bool.noConfusion), hsc]
      dsimp only
      rw [hs]
    · intro u hu
      rw [hs] at hu
      have hge := maxTriple_ge t ts u hu
      have hmm : maxTriple t ts ∈ refineOnlyCat (refineLines block) categoria := by
        rw [hs]
        exact maxTriple_mem t ts
      have hml := refineOnlyCat_snd_len hmm
      have hul := refineOnlyCat_snd_len (by rw [hs]; exact hu)
      have hnp : ¬((maxTriple t ts).1 < u.1 ∨ ((maxTriple t ts).1 = u.1 ∧
          ((maxTriple t ts).2.1 < u.2.1 ∨ ((maxTriple t ts).2.1 = u.2.1 ∧
            (maxTriple t ts).2.2 < u.2.2)))) := by
        intro hp
        rw [(tupleLt_iff (maxTriple t ts) u).mpr hp] at hge
        exact Bool.noConfusion hge
      push_neg at hnp
      refine ⟨hge, not_lt.mp (fun hlt => absurd hnp.1 (not_le.mpr hlt)), ?_⟩
      intro he
      have h2 := (hnp.2 he.symm).1
      omega
  · intro hl0 hsc hoc
    obtain ⟨a, as, hl⟩ : ∃ a as, refineLines block = a :: as := by
      cases hl : refineLines block with
      | nil => exact absurd hl hl0
      | cons a as => exact ⟨a, as, rfl⟩
    rw [refine_eq_of_ne block categoria cfg hb,
        if_neg (by rw [hisEmpty a as hl]; exact Bool.noConfusion), hsc]
    dsimp only
    rw [hoc]

/-- Witness for refine_description_best_line at a concrete two-line block. -/
theorem refine_description_best_line_witness :
    RefineBestLine "standard um:\nstandard dois tres" "standard" "" :=
  refine_description_best_line "standard um:\nstandard dois tres" "standard" "" (by decide)

set_option maxRecDepth 4000 in
/-- C3 counterexample: the block splits into the two candidate lines
"standard um:" and "standard dois tres", both with combined score 12, and
the refiner returns the SHORTER line, not the longer one the spec
claims. -/
theorem refine_tie_counterexample :
    refineLines "standard um:\nstandard dois tres" =
      ["standard um:", "standard dois tres"] ∧
    _category_match_score "standard um:" "standard" * 3 +
      _config_match_score "standard um:" "" = 12 ∧
    _category_match_score "standard dois tres" "standard" * 3 +
      _config_match_score "standard dois tres" "" = 12 ∧
    "standard um:".length < "standard dois tres".length ∧
    refine_description_for_quote "standard um:\nstandard dois tres" "standard" "" =
      "standard um:" ∧
    ¬(refine_description_for_quote "standard um:\nstandard dois tres" "standard" "" =
        "standard dois tres") := by
  refine ⟨rfl, rfl, rfl, by decide, rfl, ?_⟩
  intro h
  rw [show refine_description_for_quote "standard um:\nstandard dois tres" "standard" "" =
        "standard um:" from rfl] at h
  exact absurd h (by decide)

/- === C4 support: the Cotações branch of parse_llm_to_list is dead code === -/

theorem dropWhile_eq_drop (p : Char → Bool) (l : List Char) :
    ∃ k, l.dropWhile p = l.drop k ∧ k ≤ l.length := by
  induction l with
  | nil => exact ⟨0, rfl, Nat.le_refl 0⟩
  | cons a t ih =>
    by_cases h : p a = true
    · obtain ⟨k, hk, hle⟩ := ih
      refine ⟨k + 1, ?_, by simpa using Nat.succ_le_succ hle⟩
      rw [List.dropWhile_cons, if_pos h]
      simpa using hk
    · exact ⟨0, by rw [List.dropWhile_cons, if_neg h, List.drop_zero], Nat.zero_le _⟩

theorem reverse_drop_reverse (l : List Char) (n : Nat) (h : n ≤ l.length) :
    (l.reverse.drop n).reverse = l.take (l.length - n) := by
  have h2 : (l.take (l.length - n)).reverse = l.reverse.drop n := by
    rw [List.reverse_take]
    congr 1
    omega
  rw [← h2, List.reverse_reverse]

theorem rstrip_eq_take (p : Char → Bool) (l : List Char) :
    ∃ m, (l.reverse.dropWhile p).reverse = l.take m := by
  obtain ⟨k, hk, hle⟩ := dropWhile_eq_drop p l.reverse
  rw [List.length_reverse] at hle
  exact ⟨l.length - k, by rw [hk, reverse_drop_reverse l k hle]⟩

theorem interval_trans {x y z : List Char}
    (h1 : ∃ a b, y = (x.drop a).take b) (h2 : ∃ c d, z = (y.drop c).take d) :
    ∃ a b, z = (x.drop a).take b := by
  obtain ⟨a, b, rfl⟩ := h1
  obtain ⟨c, d, hz⟩ := h2
  rw [List.drop_take, List.drop_drop, List.take_take] at hz
  exact ⟨a + c, min d (b - c), hz⟩

theorem get?_lt_length {l : List Char} {i : Nat} {c : Char}
    (h : l.get? i = some c) : i < l.length := by
  by_contra hc
  push_neg at hc
  rw [List.get?_eq_none.mpr hc] at h
  exact Option.noConfusion h

theorem get?_interval {x y : List Char} {a b : Nat} (hy : y = (x.drop a).take b)
    {i : Nat} {c : Char} (h : y.get? i = some c) : x.get? (a + i) = some c := by
  subst hy
  have hib : i < b := by
    have h1 := get?_lt_length h
    have h2 := List.length_take b (x.drop a)
    omega
  rw [List.get?_take hib, List.get?_drop] at h
  exact h

theorem findIdx?_cons_eq (p : Char → Bool) (x : Char) (t : List Char) :
    (x :: t).findIdx? p = if p x then some 0 else (t.findIdx? p).map (fun i => i + 1) := by
  simp [List.findIdx?_cons, List.findIdx?_succ]

theorem findIdx?_some_le {p : Char → Bool} :
    ∀ {l : List Char} {n : Nat} {a : Char},
      l.get? n = some a → p a = true → ∃ i, l.findIdx? p = some i ∧ i ≤ n := by
  intro l
  induction l with
  | nil => intro n a h _; exact absurd h (by simp)
  | cons x t ih =>
    intro n a h hp
    by_cases hx : p x = true
    · exact ⟨0, by rw [findIdx?_cons_eq, if_pos hx], Nat.zero_le n⟩
    · cases n with
      | zero =>
        injection h with h2
        rw [h2] at hx
        exact absurd hp hx
      | succ m =>
        obtain ⟨i, hi, hle⟩ := ih h hp
        refine ⟨i + 1, ?_, Nat.succ_le_succ hle⟩
        rw [findIdx?_cons_eq, if_neg hx, hi]
        rfl

theorem findIdx?_some_get? {p : Char → Bool} :
    ∀ {l : List Char} {i : Nat},
      l.findIdx? p = some i → ∃ a, l.get? i = some a ∧ p a = true := by
  intro l
  induction l with
  | nil => intro i h; exact absurd h (by simp)
  | cons x t ih =>
    intro i h
    rw [findIdx?_cons_eq] at h
    by_cases hx : p x = true
    · rw [if_pos hx] at h
      injection h with h2
      exact ⟨x, by rw [← h2]; rfl, hx⟩
    · rw [if_neg hx] at h
      cases hf : t.findIdx? p with
      | none => rw [hf] at h; exact absurd h (by simp)
      | some j =>
        rw [hf] at h
        simp only [Option.map_some'] at h
        injection h with h2
        obtain ⟨a, ha, hpa⟩ := ih hf
        exact ⟨a, by rw [← h2]; exact ha, hpa⟩

theorem strFindChar_found {s : String} {c : Char} {i : Nat}
    (h : strFindChar? s c = some i) : s.data.get? i = some c := by
  obtain ⟨a, ha, hpa⟩ := findIdx?_some_get? h
  rw [of_decide_eq_true hpa] at ha
  exact ha

theorem strFindChar_exists {s : String} {c : Char} {n : Nat}
    (hn : s.data.get? n = some c) : ∃ i, strFindChar? s c = some i ∧ i ≤ n :=
  findIdx?_some_le hn (decide_eq_true rfl)

theorem strRfindChar_exists {s : String} {c : Char} {n : Nat}
    (hn : s.data.get? n = some c) :
    ∃ i, strRfindChar? s c = some i ∧ n ≤ i ∧ s.data.get? i = some c := by
  have hnl : n < s.data.length := get?_lt_length hn
  have hrev : s.data.reverse.get? (s.data.length - 1 - n) = some c := by
    rw [@List.get?_reverse Char s.data (s.data.length - 1 - n) (by omega)]
    rw [show s.data.length - 1 - (s.data.length - 1 - n) = n from by omega]
    exact hn
  obtain ⟨j, hj, hjle⟩ :=
    @findIdx?_some_le (fun d => decide (d = c)) s.data.reverse (s.data.length - 1 - n) c hrev
      (decide_eq_true rfl)
  refine ⟨s.data.length - 1 - j, ?_, by omega, ?_⟩
  · unfold strRfindChar?
    rw [hj]
    rfl
  · obtain ⟨a, ha, hpa⟩ := findIdx?_some_get? hj
    have hjl : j < s.data.length := by
      have := get?_lt_length ha
      rwa [List.length_reverse] at this
    rw [@List.get?_reverse Char s.data j hjl] at ha
    rw [of_decide_eq_true hpa] at ha
    exact ha

theorem dropWhile_concat_pred_false (p : Char → Bool) (c : Char) (hc : p c = false) :
    ∀ l : List Char, ∃ l', (l ++ [c]).dropWhile p = l' ++ [c] := by
  intro l
  induction l with
  | nil => exact ⟨[], by simp [List.dropWhile_cons, hc]⟩
  | cons a t ih =>
    by_cases ha : p a = true
    · obtain ⟨l', hl'⟩ := ih
      exact ⟨l', by rw [List.cons_append, List.dropWhile_cons, if_pos ha]; exact hl'⟩
    · exact ⟨a :: t, by rw [List.cons_append, List.dropWhile_cons, if_neg ha]⟩

theorem stripBoth_head (p : Char → Bool) (c : Char) (hc : p c = false) (tl : List Char) :
    ∃ tl', stripBothList p (c :: tl) = c :: tl' := by
  unfold stripBothList
  rw [List.dropWhile_cons, if_neg (by rw [hc]; exact Bool.noConfusion)]
  rw [List.reverse_cons]
  obtain ⟨l', hl'⟩ := dropWhile_concat_pred_false p c hc tl.reverse
  refine ⟨l'.reverse, ?_⟩
  rw [hl']
  simp

theorem pyStrip_head {s : String} {tl : List Char} (h : s.data = '[' :: tl) :
    ∃ tl', (pyStrip s).data = '[' :: tl' := by
  show ∃ tl', stripBothList pyIsSpace s.data = '[' :: tl'
  rw [h]
  exact stripBoth_head pyIsSpace '[' (by decide) tl

theorem startsWithList_cons {l u : List Char} {d : Char}
    (h : startsWithList l (d :: u) = true) : ∃ t, l = d :: t ∧ startsWithList t u = true := by
  cases l with
  | nil => exact absurd h (by simp [startsWithList])
  | cons c t =>
    unfold startsWithList at h
    rw [Bool.and_eq_true] at h
    exact ⟨t, by rw [of_decide_eq_true h.1], h.2⟩

theorem stripLeadFence_bracket {s : String} {tl : List Char} (h : s.data = '[' :: tl) :
    stripLeadFence s = s := by
  unfold stripLeadFence
  rw [if_neg ?_]
  intro hc
  unfold pyStartsWith at hc
  rw [h] at hc
  obtain ⟨t, ht, _⟩ := startsWithList_cons hc
  injection ht with h1
  exact absurd h1 (by decide)

theorem eq_concat_tail {xs : List Char} {c : Char} (h : ∃ pre, xs = pre ++ [c]) :
    ∀ {d : Char} {t : List Char}, xs = d :: t → (t = [] ∧ d = c) ∨ ∃ l', t = l' ++ [c] := by
  obtain ⟨pre, rfl⟩ := h
  intro d t hdt
  cases pre with
  | nil =>
    rw [List.nil_append] at hdt
    injection hdt with h1 h2
    exact Or.inl ⟨h2.symm, h1.symm⟩
  | cons p ps =>
    rw [List.cons_append] at hdt
    injection hdt with h1 h2
    exact Or.inr ⟨ps, h2.symm⟩

theorem stripTrailFence_head {s : String} {tl : List Char} (h : s.data = '[' :: tl) :
    ∃ tl', (stripTrailFence s).data = '[' :: tl' := by
  have hsnoc : ∃ pre, s.data.reverse = pre ++ ['['] := ⟨tl.reverse, by rw [h, List.reverse_cons]⟩
  show ∃ tl', (if startsWithList s.data.reverse ['`', '`', '`'] then
      String.mk ((s.data.reverse.drop 3).dropWhile pyIsSpace).reverse
    else if startsWithList s.data.reverse ['\n', '`', '`', '`'] then
      String.mk ('\n' :: ((s.data.reverse.drop 4).dropWhile pyIsSpace)).reverse
    else s).data = '[' :: tl'
  by_cases h1 : startsWithList s.data.reverse ['`', '`', '`'] = true
  · rw [if_pos h1]
    obtain ⟨t1, he1, h1b⟩ := startsWithList_cons h1
    obtain ⟨t2, he2, h1c⟩ := startsWithList_cons h1b
    obtain ⟨t3, he3, _⟩ := startsWithList_cons h1c
    rcases eq_concat_tail hsnoc he1 with ⟨_, hd⟩ | hs1
    · exact absurd hd (by decide)
    rcases eq_concat_tail hs1 he2 with ⟨_, hd⟩ | hs2
    · exact absurd hd (by decide)
    rcases eq_concat_tail hs2 he3 with ⟨_, hd⟩ | hs3
    · exact absurd hd (by decide)
    obtain ⟨l3, hl3⟩ := hs3
    have hdrop : s.data.reverse.drop 3 = t3 := by rw [he1, he2, he3]; rfl
    rw [hdrop, hl3]
    obtain ⟨l4, hl4⟩ := dropWhile_concat_pred_false pyIsSpace '[' (by decide) l3
    rw [hl4]
    refine ⟨l4.reverse, ?_⟩
    show (l4 ++ ['[']).reverse = '[' :: l4.reverse
    simp
  · rw [if_neg h1]
    by_cases h2 : startsWithList s.data.reverse ['\n', '`', '`', '`'] = true
    · rw [if_pos h2]
      obtain ⟨t1, he1, h2b⟩ := startsWithList_cons h2
      obtain ⟨t2, he2, h2c⟩ := startsWithList_cons h2b
      obtain ⟨t3, he3, h2d⟩ := startsWithList_cons h2c
      obtain ⟨t4, he4, _⟩ := startsWithList_cons h2d
      rcases eq_concat_tail hsnoc he1 with ⟨_, hd⟩ | hs1
      · exact absurd hd (by decide)
      rcases eq_concat_tail hs1 he2 with ⟨_, hd⟩ | hs2
      · exact absurd hd (by decide)
      rcases eq_concat_tail hs2 he3 with ⟨_, hd⟩ | hs3
      · exact absurd hd (by decide)
      rcases eq_concat_tail hs3 he4 with ⟨_, hd⟩ | hs4
      · exact absurd hd (by decide)
      obtain ⟨l4, hl4⟩ := hs4
      have hdrop : s.data.reverse.drop 4 = t4 := by rw [he1, he2, he3, he4]; rfl
      rw [hdrop, hl4]
      obtain ⟨l5, hl5⟩ := dropWhile_concat_pred_false pyIsSpace '[' (by decide) l4
      rw [hl5]
      refine ⟨l5.reverse ++ ['\n'], ?_⟩
      show ('\n' :: (l5 ++ ['['])).reverse = '[' :: (l5.reverse ++ ['\n'])
      simp
    · rw [if_neg h2]
      exact ⟨tl, h⟩

theorem reverse_drop_reverse_all (l : List Char) (n : Nat) :
    (l.reverse.drop n).reverse = l.take (l.length - n) := by
  by_cases h : n ≤ l.length
  · exact reverse_drop_reverse l n h
  · push_neg at h
    rw [List.drop_eq_nil_of_le (by rw [List.length_reverse]; omega),
        show l.length - n = 0 from by omega, List.take_zero, List.reverse_nil]

theorem stripBoth_interval (p : Char → Bool) (l : List Char) :
    ∃ a b, stripBothList p l = (l.drop a).take b := by
  unfold stripBothList
  obtain ⟨k, hk, hkle⟩ := dropWhile_eq_drop p l
  obtain ⟨m, hm⟩ := rstrip_eq_take p (l.drop k)
  refine ⟨k, m, ?_⟩
  rw [hk, hm]

theorem interval_self (l : List Char) : ∃ a b, l = (l.drop a).take b :=
  ⟨0, l.length, by rw [List.drop_zero, List.take_length]⟩

theorem sanitizeObjFallback_interval (s : String) :
    ∃ a b, (sanitizeObjFallback s).data = (s.data.drop a).take b := by
  unfold sanitizeObjFallback
  cases strFindChar? s '\x7b' with
  | none => exact interval_self s.data
  | some so =>
    cases strRfindChar? s '\x7d' with
    | none => exact interval_self s.data
    | some eo =>
      dsimp only
      by_cases hle : so ≤ eo
      · rw [if_pos hle]
        exact ⟨so, eo + 1 - so, rfl⟩
      · rw [if_neg hle]
        exact interval_self s.data

theorem sanitize_interval (s : String) :
    ∃ a b, (sanitize_json_only s).data = (s.data.drop a).take b := by
  unfold sanitize_json_only
  cases strFindChar? s '[' with
  | none => exact sanitizeObjFallback_interval s
  | some st =>
    cases strRfindChar? s ']' with
    | none => exact sanitizeObjFallback_interval s
    | some en =>
      dsimp only
      by_cases hlt : en < st
      · rw [if_pos hlt]
        exact sanitizeObjFallback_interval s
      · rw [if_neg hlt]
        exact ⟨st, en + 1 - st, rfl⟩

theorem stripLeadFence_interval (s : String) :
    ∃ a b, (stripLeadFence s).data = (s.data.drop a).take b := by
  show ∃ a b, (if pyStartsWith s "```" then
      String.mk ((if pyLower (String.mk ((s.data.drop 3).take 4)) = "json" then
          (s.data.drop 3).drop 4
        else s.data.drop 3).dropWhile pyIsSpace)
    else s).data = (s.data.drop a).take b
  by_cases h1 : pyStartsWith s "```" = true
  · rw [if_pos h1]
    by_cases h2 : pyLower (String.mk ((s.data.drop 3).take 4)) = "json"
    · rw [if_pos h2]
      rw [List.drop_drop]
      obtain ⟨k, hk, _⟩ := dropWhile_eq_drop pyIsSpace (s.data.drop (3 + 4))
      show ∃ a b, (s.data.drop (3 + 4)).dropWhile pyIsSpace = (s.data.drop a).take b
      rw [hk, List.drop_drop]
      exact ⟨3 + 4 + k, (s.data.drop (3 + 4 + k)).length, (List.take_length _).symm⟩
    · rw [if_neg h2]
      obtain ⟨k, hk, _⟩ := dropWhile_eq_drop pyIsSpace (s.data.drop 3)
      show ∃ a b, (s.data.drop 3).dropWhile pyIsSpace = (s.data.drop a).take b
      rw [hk, List.drop_drop]
      exact ⟨3 + k, (s.data.drop (3 + k)).length, (List.take_length _).symm⟩
  · rw [if_neg h1]
    exact interval_self s.data

theorem stripTrailFence_intervalTail (s : String) :
    ∃ a b t, (stripTrailFence s).data = ((s.data.drop a).take b) ++ t ∧
      (t = [] ∨ t = ['\n']) := by
  show ∃ a b t, (if startsWithList s.data.reverse ['`', '`', '`'] then
      String.mk ((s.data.reverse.drop 3).dropWhile pyIsSpace).reverse
    else if startsWithList s.data.reverse ['\n', '`', '`', '`'] then
      String.mk ('\n' :: ((s.data.reverse.drop 4).dropWhile pyIsSpace)).reverse
    else s).data = ((s.data.drop a).take b) ++ t ∧ (t = [] ∨ t = ['\n'])
  by_cases h1 : startsWithList s.data.reverse ['`', '`', '`'] = true
  · rw [if_pos h1]
    obtain ⟨k, hk, _⟩ := dropWhile_eq_drop pyIsSpace (s.data.reverse.drop 3)
    refine ⟨0, s.data.length - (3 + k), [], ?_, Or.inl rfl⟩
    show ((s.data.reverse.drop 3).dropWhile pyIsSpace).reverse =
      ((s.data.drop 0).take (s.data.length - (3 + k))) ++ []
    rw [hk, List.drop_drop, List.append_nil, List.drop_zero,
        reverse_drop_reverse_all s.data (3 + k)]
  · rw [if_neg h1]
    by_cases h2 : startsWithList s.data.reverse ['\n', '`', '`', '`'] = true
    · rw [if_pos h2]
      obtain ⟨k, hk, _⟩ := dropWhile_eq_drop pyIsSpace (s.data.reverse.drop 4)
      refine ⟨0, s.data.length - (4 + k), ['\n'], ?_, Or.inr rfl⟩
      show ('\n' :: ((s.data.reverse.drop 4).dropWhile pyIsSpace)).reverse =
        ((s.data.drop 0).take (s.data.length - (4 + k))) ++ ['\n']
      rw [hk, List.drop_drop, List.drop_zero, List.reverse_cons,
          reverse_drop_reverse_all s.data (4 + k)]
    · rw [if_neg h2]
      obtain ⟨a, b, hab⟩ := interval_self s.data
      exact ⟨a, b, [], by rw [List.append_nil]; exact hab, Or.inl rfl⟩

theorem llmCleaned_intervalTail (text : String) :
    ∃ a b t, (llmCleaned text).data = ((text.data.drop a).take b) ++ t ∧
      (t = [] ∨ t = ['\n']) := by
  have h1 := sanitize_interval text
  have h2 : ∃ a b, (pyStrip (sanitize_json_only text)).data =
      ((sanitize_json_only text).data.drop a).take b := stripBoth_interval _ _
  have h3 := stripLeadFence_interval (pyStrip (sanitize_json_only text))
  have h12 := interval_trans h1 h2
  have h123 := interval_trans h12 h3
  obtain ⟨a, b, t, h4, ht⟩ :=
    stripTrailFence_intervalTail (stripLeadFence (pyStrip (sanitize_json_only text)))
  have h5 : ∃ a' b',
      ((stripLeadFence (pyStrip (sanitize_json_only text))).data.drop a).take b =
        (text.data.drop a').take b' :=
    interval_trans h123 ⟨a, b, rfl⟩
  obtain ⟨a', b', h6⟩ := h5
  refine ⟨a', b', t, ?_, ht⟩
  show (stripTrailFence (stripLeadFence (pyStrip (sanitize_json_only text)))).data = _
  rw [h4, h6]

theorem llmCleaned_bracket_transfer (text : String) {i j : Nat}
    (hij : i < j) (hi : (llmCleaned text).data.get? i = some '[')
    (hj : (llmCleaned text).data.get? j = some ']') :
    ∃ p q, p < q ∧ text.data.get? p = some '[' ∧ text.data.get? q = some ']' := by
  obtain ⟨a, b, t, hcl, ht⟩ := llmCleaned_intervalTail text
  rw [hcl] at hi hj
  have hjlt : j < ((text.data.drop a).take b).length := by
    by_contra hc
    push_neg at hc
    rw [List.get?_append_right hc] at hj
    rcases ht with rfl | rfl
    · exact Option.noConfusion hj
    · cases hn : j - ((text.data.drop a).take b).length with
      | zero =>
        rw [hn] at hj
        injection hj with h2
        exact absurd h2 (by decide)
      | succ m =>
        rw [hn] at hj
        exact Option.noConfusion hj
  have hilt : i < ((text.data.drop a).take b).length := lt_trans hij hjlt
  rw [List.get?_append hilt] at hi
  rw [List.get?_append hjlt] at hj
  exact ⟨a + i, a + j, by omega, get?_interval rfl hi, get?_interval rfl hj⟩

theorem strBodyDec_suffix {e : Char} {r2 : List Char} {ch : Char} {r3 : List Char}
    (h : (if e = '"' then some ('"', r2)
      else if e = '\\' then some ('\\', r2)
      else if e = '/' then some ('/', r2)
      else if e = 'b' then some ('\x08', r2)
      else if e = 'f' then some ('\x0c', r2)
      else if e = 'n' then some ('\n', r2)
      else if e = 'r' then some ('\r', r2)
      else if e = 't' then some ('\t', r2)
      else if e = 'u' then
        match r2 with
        | h1 :: h2 :: h3 :: h4 :: r3 =>
          match hexVal? h1, hexVal? h2, hexVal? h3, hexVal? h4 with
          | some a, some b, some cc, some d =>
            some (Char.ofNat (((a * 16 + b) * 16 + cc) * 16 + d), r3)
          | _, _, _, _ => none
        | _ => none
      else none) = some (ch, r3)) : r3 <:+ r2 := by
  repeat' split at h
  all_goals first
    | (injection h with h2; injection h2 with h3 h4; rw [← h4]; done)
    | (injection h with h2; injection h2 with h3 h4; rw [← h4]
       exact (List.suffix_cons _ _).trans ((List.suffix_cons _ _).trans
         ((List.suffix_cons _ _).trans (List.suffix_cons _ _))))
    | exact Option.noConfusion h

theorem jsonParseStrBody_suffix :
    ∀ (f : Nat) (cs : List Char) (p : List Char × List Char),
      jsonParseStrBody f cs = some p → p.2 <:+ cs := by
  intro f
  induction f with
  | zero =>
    intro cs p h
    cases cs with
    | nil => exact Option.noConfusion h
    | cons c rest => exact Option.noConfusion h
  | succ n ih =>
    intro cs p h
    cases cs with
    | nil => exact Option.noConfusion h
    | cons c rest =>
      rw [show jsonParseStrBody (n + 1) (c :: rest) =
        (if c = '"' then some ([], rest)
        else if c = '\\' then
          match rest with
          | [] => none
          | e :: r2 =>
            let dec : Option (Char × List Char) :=
              if e = '"' then some ('"', r2)
              else if e = '\\' then some ('\\', r2)
              else if e = '/' then some ('/', r2)
              else if e = 'b' then some ('\x08', r2)
              else if e = 'f' then some ('\x0c', r2)
              else if e = 'n' then some ('\n', r2)
              else if e = 'r' then some ('\r', r2)
              else if e = 't' then some ('\t', r2)
              else if e = 'u' then
                match r2 with
                | h1 :: h2 :: h3 :: h4 :: r3 =>
                  match hexVal? h1, hexVal? h2, hexVal? h3, hexVal? h4 with
                  | some a, some b, some cc, some d =>
                    some (Char.ofNat (((a * 16 + b) * 16 + cc) * 16 + d), r3)
                  | _, _, _, _ => none
                | _ => none
              else none
            match dec with
            | some (ch, r3) =>
              (jsonParseStrBody n r3).map (fun q => (ch :: q.1, q.2))
            | none => none
        else if c.toNat < 0x20 then none
        else (jsonParseStrBody n rest).map (fun q => (c :: q.1, q.2))) from rfl] at h
      by_cases hq : c = '"'
      · rw [if_pos hq] at h
        injection h with h2
        rw [← h2]
        exact List.suffix_cons c rest
      · rw [if_neg hq] at h
        by_cases hb : c = '\\'
        · rw [if_pos hb] at h
          cases rest with
          | nil => exact Option.noConfusion h
          | cons e r2 =>
            dsimp only at h
            split at h
            · rename_i ch r3 heq
              cases hin : jsonParseStrBody n r3 with
              | none => rw [hin] at h; exact Option.noConfusion h
              | some q =>
                rw [hin] at h
                simp only [Option.map_some'] at h
                injection h with h2
                rw [← h2]
                have hr3 : r3 <:+ r2 := strBodyDec_suffix heq
                exact ((ih r3 q hin).trans hr3).trans
                  ((List.suffix_cons e r2).trans (List.suffix_cons c (e :: r2)))
            · exact Option.noConfusion h
        · rw [if_neg hb] at h
          by_cases hc0 : c.toNat < 0x20
          · rw [if_pos hc0] at h
            exact Option.noConfusion h
          · rw [if_neg hc0] at h
            cases hin : jsonParseStrBody n rest with
            | none => rw [hin] at h; exact Option.noConfusion h
            | some q =>
              rw [hin] at h
              simp only [Option.map_some'] at h
              injection h with h2
              rw [← h2]
              exact (ih rest q hin).trans (List.suffix_cons c rest)

theorem expSg_suffix (r0 : List Char) :
    (match r0 with
     | '+' :: t => ((1 : Int), t)
     | '-' :: t => ((-1 : Int), t)
     | t => ((1 : Int), t)).2 <:+ r0 := by
  split
  · exact List.suffix_cons _ _
  · exact List.suffix_cons _ _
  · exact List.suffix_refl _

theorem jsonExpPart_suffix {cs : List Char} {eo : Option Int} {r : List Char}
    (h : jsonExpPart cs = some (eo, r)) : r <:+ cs := by
  unfold jsonExpPart at h
  cases cs with
  | nil =>
    injection h with h2
    injection h2 with h3 h4
    rw [← h4]
  | cons c r0 =>
    dsimp only at h
    by_cases he : (c = 'e' || c = 'E') = true
    · rw [if_pos he] at h
      split at h
      · exact Option.noConfusion h
      · injection h with h2
        injection h2 with h3 h4
        rw [← h4]
        exact ((List.dropWhile_suffix Char.isDigit).trans (expSg_suffix r0)).trans
          (List.suffix_cons c r0)
    · rw [if_neg he] at h
      injection h with h2
      injection h2 with h3 h4
      rw [← h4]

theorem numSgn_suffix (cs : List Char) :
    (match cs with
     | '-' :: t => (true, t)
     | t => (false, t)).2 <:+ cs := by
  split
  · exact List.suffix_cons _ _
  · exact List.suffix_refl _

theorem jsonParseNumber_suffix {cs : List Char} {p : PyVal × List Char}
    (h : jsonParseNumber cs = some p) : p.2 <:+ cs := by
  unfold jsonParseNumber at h
  dsimp only at h
  split at h
  · exact Option.noConfusion h
  · split at h
    · exact Option.noConfusion h
    · have hsgn := numSgn_suffix cs
      split at h
      · rename_i r3 heq
        split at h
        · exact Option.noConfusion h
        · split at h
          · exact Option.noConfusion h
          · rename_i eo r5 hexp
            injection h with h2
            rw [← h2]
            have h1 : r5 <:+ r3.dropWhile Char.isDigit := jsonExpPart_suffix hexp
            have h2b : r3.dropWhile Char.isDigit <:+ r3 := List.dropWhile_suffix _
            have h3 : ('.' :: r3) <:+
                (match cs with
                 | '-' :: t => (true, t)
                 | t => (false, t)).2 := by
              rw [← heq]
              exact List.dropWhile_suffix _
            exact ((h1.trans h2b).trans ((List.suffix_cons '.' r3).trans h3)).trans hsgn
      · split at h
        · exact Option.noConfusion h
        · rename_i r5 hexp
          injection h with h2
          rw [← h2]
          exact ((jsonExpPart_suffix hexp).trans (List.dropWhile_suffix _)).trans hsgn
        · rename_i e r5 hexp
          injection h with h2
          rw [← h2]
          exact ((jsonExpPart_suffix hexp).trans (List.dropWhile_suffix _)).trans hsgn

theorem jsonParseVal_succ (n : Nat) (cs : List Char) :
    jsonParseVal (n + 1) cs =
      (match jsonSkipWs cs with
      | [] => none
      | '\x7b' :: rest => jsonParseObj n (jsonSkipWs rest)
      | '[' :: rest => jsonParseArr n (jsonSkipWs rest)
      | '"' :: rest => (jsonParseStrBody n rest).map (fun p => (.pstr (String.mk p.1), p.2))
      | 't' :: rest =>
        if startsWithList rest ['r', 'u', 'e'] then some (.pbool true, rest.drop 3) else none
      | 'f' :: rest =>
        if startsWithList rest ['a', 'l', 's', 'e'] then some (.pbool false, rest.drop 4)
        else none
      | 'n' :: rest =>
        if startsWithList rest ['u', 'l', 'l'] then some (.pnone, rest.drop 3) else none
      | cs2 => jsonParseNumber cs2) := rfl

theorem jsonParseArr_succ (n : Nat) (cs : List Char) :
    jsonParseArr (n + 1) cs =
      (match cs with
      | ']' :: r => some (.plist [], r)
      | _ => (jsonParseArrItems n cs).map (fun p => (.plist p.1, p.2))) := rfl

theorem jsonParseArrItems_succ (n : Nat) (cs : List Char) :
    jsonParseArrItems (n + 1) cs =
      (match jsonParseVal n cs with
      | none => none
      | some (v, r) =>
        match jsonSkipWs r with
        | ',' :: r2 => (jsonParseArrItems n r2).map (fun p => (v :: p.1, p.2))
        | ']' :: r2 => some ([v], r2)
        | _ => none) := rfl

theorem jsonParseObj_succ (n : Nat) (cs : List Char) :
    jsonParseObj (n + 1) cs =
      (match cs with
      | '\x7d' :: r => some (.pdict [], r)
      | _ => (jsonParseObjItems n cs).map (fun p => (.pdict p.1, p.2))) := rfl

theorem jsonParseObjItems_succ (n : Nat) (cs : List Char) :
    jsonParseObjItems (n + 1) cs =
      (match jsonSkipWs cs with
      | '"' :: r =>
        match jsonParseStrBody n r with
        | none => none
        | some (kcs, r2) =>
          match jsonSkipWs r2 with
          | ':' :: r3 =>
            match jsonParseVal n r3 with
            | none => none
            | some (v, r4) =>
              match jsonSkipWs r4 with
              | ',' :: r5 =>
                (jsonParseObjItems n r5).map
                  (fun p =>
                    (match dictGet? p.1 (String.mk kcs) with
                     | some v2 => (String.mk kcs, v2) :: dictErase p.1 (String.mk kcs)
                     | none => (String.mk kcs, v) :: p.1,
                     p.2))
              | '\x7d' :: r5 => some ([(String.mk kcs, v)], r5)
              | _ => none
          | _ => none
      | _ => none) := rfl

theorem jsonSuffix :
    ∀ f : Nat,
      (∀ cs v r, jsonParseVal f cs = some (v, r) → r <:+ cs) ∧
      (∀ cs v r, jsonParseArr f cs = some (v, r) → r <:+ cs) ∧
      (∀ cs vs r, jsonParseArrItems f cs = some (vs, r) → r <:+ cs) ∧
      (∀ cs v r, jsonParseObj f cs = some (v, r) → r <:+ cs) ∧
      (∀ cs d r, jsonParseObjItems f cs = some (d, r) → r <:+ cs) := by
  intro f
  induction f with
  | zero =>
    exact ⟨fun cs v r h => Option.noConfusion h, fun cs v r h => Option.noConfusion h,
      fun cs vs r h => Option.noConfusion h, fun cs v r h => Option.noConfusion h,
      fun cs d r h => Option.noConfusion h⟩
  | succ n ih =>
    obtain ⟨ihV, ihA, ihAI, ihO, ihOI⟩ := ih
    have hws : ∀ cs : List Char, jsonSkipWs cs <:+ cs := fun cs => List.dropWhile_suffix _
    refine ⟨?_, ?_, ?_, ?_, ?_⟩
    · intro cs v r h
      rw [jsonParseVal_succ] at h
      split at h
      · exact Option.noConfusion h
      · rename_i rest heq
        exact (ihO _ _ _ h).trans ((hws rest).trans
          ((List.suffix_cons _ rest).trans (heq ▸ hws cs)))
      · rename_i rest heq
        exact (ihA _ _ _ h).trans ((hws rest).trans
          ((List.suffix_cons _ rest).trans (heq ▸ hws cs)))
      · rename_i rest heq
        cases hin : jsonParseStrBody n rest with
        | none => rw [hin] at h; exact Option.noConfusion h
        | some q =>
          rw [hin] at h
          simp only [Option.map_some'] at h
          injection h with h2
          injection h2 with hv hrr
          rw [← hrr]
          exact (jsonParseStrBody_suffix n rest q hin).trans
            ((List.suffix_cons _ rest).trans (heq ▸ hws cs))
      · rename_i rest heq
        split at h
        · injection h with h2
          injection h2 with hv hrr
          rw [← hrr]
          exact (List.drop_suffix 3 rest).trans ((List.suffix_cons _ rest).trans (heq ▸ hws cs))
        · exact Option.noConfusion h
      · rename_i rest heq
        split at h
        · injection h with h2
          injection h2 with hv hrr
          rw [← hrr]
          exact (List.drop_suffix 4 rest).trans ((List.suffix_cons _ rest).trans (heq ▸ hws cs))
        · exact Option.noConfusion h
      · rename_i rest heq
        split at h
        · injection h with h2
          injection h2 with hv hrr
          rw [← hrr]
          exact (List.drop_suffix 3 rest).trans ((List.suffix_cons _ rest).trans (heq ▸ hws cs))
        · exact Option.noConfusion h
      · exact (jsonParseNumber_suffix h).trans (hws cs)
    · intro cs v r h
      rw [jsonParseArr_succ] at h
      split at h
      · injection h with h2
        injection h2 with hv hrr
        rw [← hrr]
        exact List.suffix_cons _ _
      · cases hin : jsonParseArrItems n cs with
        | none => rw [hin] at h; exact Option.noConfusion h
        | some q =>
          rw [hin] at h
          simp only [Option.map_some'] at h
          injection h with h2
          injection h2 with hv hrr
          rw [← hrr]
          exact ihAI _ _ _ hin
    · intro cs vs r h
      rw [jsonParseArrItems_succ] at h
      split at h
      · exact Option.noConfusion h
      · rename_i v0 r0 heq0
        split at h
        · rename_i r2 heq2
          cases hin : jsonParseArrItems n r2 with
          | none => rw [hin] at h; exact Option.noConfusion h
          | some q =>
            rw [hin] at h
            simp only [Option.map_some'] at h
            injection h with h2
            injection h2 with hv hrr
            rw [← hrr]
            exact (ihAI _ _ _ hin).trans ((List.suffix_cons _ r2).trans
              ((heq2 ▸ hws r0).trans (ihV _ _ _ heq0)))
        · rename_i r2 heq2
          injection h with h2
          injection h2 with hv hrr
          rw [← hrr]
          exact (List.suffix_cons _ r2).trans ((heq2 ▸ hws r0).trans (ihV _ _ _ heq0))
        · exact Option.noConfusion h
    · intro cs v r h
      rw [jsonParseObj_succ] at h
      split at h
      · injection h with h2
        injection h2 with hv hrr
        rw [← hrr]
        exact List.suffix_cons _ _
      · cases hin : jsonParseObjItems n cs with
        | none => rw [hin] at h; exact Option.noConfusion h
        | some q =>
          rw [hin] at h
          simp only [Option.map_some'] at h
          injection h with h2
          injection h2 with hv hrr
          rw [← hrr]
          exact ihOI _ _ _ hin
    · intro cs d r h
      rw [jsonParseObjItems_succ] at h
      split at h
      · rename_i r0 heq0
        split at h
        · exact Option.noConfusion h
        · rename_i kcs r2 heqK
          split at h
          · rename_i r3 heq3
            split at h
            · exact Option.noConfusion h
            · rename_i v0 r4 heqV
              split at h
              · rename_i r5 heq5
                cases hin : jsonParseObjItems n r5 with
                | none => rw [hin] at h; exact Option.noConfusion h
                | some q =>
                  rw [hin] at h
                  simp only [Option.map_some'] at h
                  injection h with h2
                  injection h2 with hv hrr
                  rw [← hrr]
                  exact (ihOI _ _ _ hin).trans ((List.suffix_cons _ r5).trans
                    ((heq5 ▸ hws r4).trans ((ihV _ _ _ heqV).trans
                      ((List.suffix_cons _ r3).trans ((heq3 ▸ hws r2).trans
                        ((jsonParseStrBody_suffix n r0 _ heqK).trans
                          ((List.suffix_cons _ r0).trans (heq0 ▸ hws cs))))))))
              · rename_i r5 heq5
                injection h with h2
                injection h2 with hv hrr
                rw [← hrr]
                exact (List.suffix_cons _ r5).trans
                  ((heq5 ▸ hws r4).trans ((ihV _ _ _ heqV).trans
                    ((List.suffix_cons _ r3).trans ((heq3 ▸ hws r2).trans
                      ((jsonParseStrBody_suffix n r0 _ heqK).trans
                        ((List.suffix_cons _ r0).trans (heq0 ▸ hws cs)))))))
              · exact Option.noConfusion h
          · exact Option.noConfusion h
      · exact Option.noConfusion h

theorem jsonCloseBracket :
    ∀ f : Nat,
      (∀ cs v r, jsonParseArr f cs = some (v, r) → ']' ∈ cs) ∧
      (∀ cs vs r, jsonParseArrItems f cs = some (vs, r) → ']' ∈ cs) := by
  intro f
  induction f with
  | zero =>
    exact ⟨fun cs v r h => Option.noConfusion h, fun cs vs r h => Option.noConfusion h⟩
  | succ n ih =>
    obtain ⟨ihA, ihAI⟩ := ih
    constructor
    · intro cs v r h
      rw [jsonParseArr_succ] at h
      split at h
      · exact List.mem_cons_self _ _
      · cases hin : jsonParseArrItems n cs with
        | none => rw [hin] at h; exact Option.noConfusion h
        | some q => exact ihAI _ _ _ hin
    · intro cs vs r h
      rw [jsonParseArrItems_succ] at h
      split at h
      · exact Option.noConfusion h
      · rename_i v0 r0 heq0
        have hr0 : r0 <:+ cs := (jsonSuffix n).1 _ _ _ heq0
        split at h
        · rename_i r2 heq2
          cases hin : jsonParseArrItems n r2 with
          | none => rw [hin] at h; exact Option.noConfusion h
          | some q =>
            have hmem : ']' ∈ r2 := ihAI _ _ _ hin
            have hsub : r2 <:+ cs := ((List.suffix_cons ',' r2).trans
              (heq2 ▸ List.dropWhile_suffix jsonIsWs)).trans hr0
            exact hsub.subset hmem
        · rename_i r2 heq2
          have hmem : ']' ∈ jsonSkipWs r0 := by
            rw [heq2]
            exact List.mem_cons_self _ _
          exact ((List.dropWhile_suffix jsonIsWs).trans hr0).subset hmem
        · exact Option.noConfusion h

theorem jsonParseArr_shape {f : Nat} {cs : List Char} {v : PyVal} {r : List Char}
    (h : jsonParseArr f cs = some (v, r)) : ∃ xs, v = .plist xs := by
  cases f with
  | zero => exact Option.noConfusion h
  | succ n =>
    rw [jsonParseArr_succ] at h
    split at h
    · injection h with h2
      injection h2 with hv hr
      exact ⟨[], hv.symm⟩
    · cases hin : jsonParseArrItems n cs with
      | none => rw [hin] at h; exact Option.noConfusion h
      | some q =>
        rw [hin] at h
        simp only [Option.map_some'] at h
        injection h with h2
        injection h2 with hv hr
        exact ⟨q.1, hv.symm⟩

theorem jsonParseObj_shape {f : Nat} {cs : List Char} {v : PyVal} {r : List Char}
    (h : jsonParseObj f cs = some (v, r)) : ∃ d, v = .pdict d := by
  cases f with
  | zero => exact Option.noConfusion h
  | succ n =>
    rw [jsonParseObj_succ] at h
    split at h
    · injection h with h2
      injection h2 with hv hr
      exact ⟨[], hv.symm⟩
    · cases hin : jsonParseObjItems n cs with
      | none => rw [hin] at h; exact Option.noConfusion h
      | some q =>
        rw [hin] at h
        simp only [Option.map_some'] at h
        injection h with h2
        injection h2 with hv hr
        exact ⟨q.1, hv.symm⟩

theorem jsonParseNumber_shape {cs : List Char} {v : PyVal} {r : List Char}
    (h : jsonParseNumber cs = some (v, r)) :
    (∃ k, v = .pint k) ∨ (∃ q, v = .pfloat q) := by
  unfold jsonParseNumber at h
  dsimp only at h
  split at h
  · exact Option.noConfusion h
  · split at h
    · exact Option.noConfusion h
    · split at h
      · split at h
        · exact Option.noConfusion h
        · split at h
          · exact Option.noConfusion h
          · injection h with h2
            injection h2 with hv hr
            exact Or.inr ⟨_, hv.symm⟩
      · split at h
        · exact Option.noConfusion h
        · injection h with h2
          injection h2 with hv hr
          exact Or.inl ⟨_, hv.symm⟩
        · injection h with h2
          injection h2 with hv hr
          exact Or.inr ⟨_, hv.symm⟩

theorem jsonVal_plist_brackets {f : Nat} {cs : List Char} {xs : List PyVal} {r : List Char}
    (h : jsonParseVal f cs = some (.plist xs, r)) :
    ∃ i j, i < j ∧ cs.get? i = some '[' ∧ cs.get? j = some ']' := by
  cases f with
  | zero => exact Option.noConfusion h
  | succ n =>
    rw [jsonParseVal_succ] at h
    split at h
    · exact Option.noConfusion h
    · rename_i rest heq
      obtain ⟨d, hd⟩ := jsonParseObj_shape h
      exact absurd hd (by intro hv; exact PyVal.noConfusion hv)
    · rename_i rest heq
      have hpre : cs.takeWhile jsonIsWs ++ cs.dropWhile jsonIsWs = cs :=
        List.takeWhile_append_dropWhile jsonIsWs cs
      have hmem : ']' ∈ rest := by
        have h1 : ']' ∈ jsonSkipWs rest := (jsonCloseBracket n).1 _ _ _ h
        exact (List.dropWhile_suffix jsonIsWs).subset h1
      obtain ⟨j0, hj0⟩ := List.mem_iff_get?.mp hmem
      set pre := cs.takeWhile jsonIsWs with hpredef
      have hcs : cs = pre ++ '[' :: rest := by
        rw [hpredef, ← heq]
        exact hpre.symm
      refine ⟨pre.length, pre.length + 1 + j0, by omega, ?_, ?_⟩
      · rw [hcs, List.get?_append_right (Nat.le_refl pre.length), Nat.sub_self]
        rfl
      · rw [hcs, List.get?_append_right (by omega : pre.length ≤ pre.length + 1 + j0)]
        rw [show pre.length + 1 + j0 - pre.length = j0 + 1 from by omega]
        exact hj0
    · rename_i rest heq
      cases hin : jsonParseStrBody n rest with
      | none => rw [hin] at h; exact Option.noConfusion h
      | some q =>
        rw [hin] at h
        simp only [Option.map_some'] at h
        injection h with h2
        injection h2 with hv hr
        exact PyVal.noConfusion hv
    · rename_i rest heq
      split at h
      · injection h with h2
        injection h2 with hv hr
        exact PyVal.noConfusion hv
      · exact Option.noConfusion h
    · rename_i rest heq
      split at h
      · injection h with h2
        injection h2 with hv hr
        exact PyVal.noConfusion hv
      · exact Option.noConfusion h
    · rename_i rest heq
      split at h
      · injection h with h2
        injection h2 with hv hr
        exact PyVal.noConfusion hv
      · exact Option.noConfusion h
    · rcases jsonParseNumber_shape h with ⟨k, hk⟩ | ⟨q, hq⟩
      · exact PyVal.noConfusion hk
      · exact PyVal.noConfusion hq

theorem dictGet?_mem : ∀ {d : PyDict} {k : String} {v : PyVal},
    dictGet? d k = some v → (k, v) ∈ d := by
  intro d
  induction d with
  | nil => intro k v h; exact Option.noConfusion h
  | cons e rest ih =>
    obtain ⟨k1, v1⟩ := e
    intro k v h
    rw [show dictGet? ((k1, v1) :: rest) k =
      (if k1 = k then some v1 else dictGet? rest k) from rfl] at h
    by_cases hk : k1 = k
    · rw [if_pos hk] at h
      injection h with h2
      rw [← h2, ← hk]
      exact List.mem_cons_self _ _
    · rw [if_neg hk] at h
      exact List.mem_cons_of_mem _ (ih h)

theorem mem_dictErase : ∀ {d : PyDict} {k : String} {e : String × PyVal},
    e ∈ dictErase d k → e ∈ d := by
  intro d
  induction d with
  | nil => intro k e h; exact absurd h (List.not_mem_nil e)
  | cons e0 rest ih =>
    obtain ⟨k1, v1⟩ := e0
    intro k e h
    rw [show dictErase ((k1, v1) :: rest) k =
      (if k1 = k then rest else (k1, v1) :: dictErase rest k) from rfl] at h
    by_cases hk : k1 = k
    · rw [if_pos hk] at h
      exact List.mem_cons_of_mem _ h
    · rw [if_neg hk] at h
      rcases List.mem_cons.mp h with he | hm
      · rw [he]
        exact List.mem_cons_self _ _
      · exact List.mem_cons_of_mem _ (ih hm)

theorem jsonObjItems_entries :
    ∀ f : Nat, ∀ cs : List Char, ∀ d : PyDict, ∀ r : List Char,
      jsonParseObjItems f cs = some (d, r) →
      ∀ k v, (k, v) ∈ d →
        ∃ f' cs' r', cs' <:+ cs ∧ jsonParseVal f' cs' = some (v, r') := by
  intro f
  induction f with
  | zero => intro cs d r h; exact Option.noConfusion h
  | succ n ih =>
    intro cs d r h k v hmem
    have hws : ∀ l : List Char, jsonSkipWs l <:+ l := fun l => List.dropWhile_suffix _
    rw [jsonParseObjItems_succ] at h
    split at h
    · rename_i r0 heq0
      split at h
      · exact Option.noConfusion h
      · rename_i kcs r2 heqK
        split at h
        · rename_i r3 heq3
          split at h
          · exact Option.noConfusion h
          · rename_i v0 r4 heqV
            have hr3cs : r3 <:+ cs :=
              (List.suffix_cons ':' r3).trans ((heq3 ▸ hws r2).trans
                ((jsonParseStrBody_suffix n r0 _ heqK).trans
                  ((List.suffix_cons '"' r0).trans (heq0 ▸ hws cs))))
            have hr4cs : r4 <:+ cs := ((jsonSuffix n).1 _ _ _ heqV).trans hr3cs
            split at h
            · rename_i r5 heq5
              have hr5cs : r5 <:+ cs := ((List.suffix_cons ',' r5).trans
                (heq5 ▸ hws r4)).trans hr4cs
              cases hin : jsonParseObjItems n r5 with
              | none => rw [hin] at h; exact Option.noConfusion h
              | some q =>
                rw [hin] at h
                simp only [Option.map_some'] at h
                injection h with h2
                injection h2 with hd hr
                rw [← hd] at hmem
                cases hg : dictGet? q.1 (String.mk kcs) with
                | some v2 =>
                  rw [hg] at hmem
                  rcases List.mem_cons.mp hmem with he | hm2
                  · injection he with hk hv
                    obtain ⟨f', cs', r', hsub, hparse⟩ :=
                      ih r5 q.1 q.2 hin (String.mk kcs) v2 (dictGet?_mem hg)
                    exact ⟨f', cs', r', hsub.trans hr5cs, by rw [hv]; exact hparse⟩
                  · obtain ⟨f', cs', r', hsub, hparse⟩ :=
                      ih r5 q.1 q.2 hin k v (mem_dictErase hm2)
                    exact ⟨f', cs', r', hsub.trans hr5cs, hparse⟩
                | none =>
                  rw [hg] at hmem
                  rcases List.mem_cons.mp hmem with he | hm2
                  · injection he with hk hv
                    exact ⟨n, r3, r4, hr3cs, by rw [hv]; exact heqV⟩
                  · obtain ⟨f', cs', r', hsub, hparse⟩ :=
                      ih r5 q.1 q.2 hin k v hm2
                    exact ⟨f', cs', r', hsub.trans hr5cs, hparse⟩
            · rename_i r5 heq5
              injection h with h2
              injection h2 with hd hr
              rw [← hd] at hmem
              rcases List.mem_cons.mp hmem with he | hm2
              · injection he with hk hv
                exact ⟨n, r3, r4, hr3cs, by rw [hv]; exact heqV⟩
              · exact absurd hm2 (List.not_mem_nil _)
            · exact Option.noConfusion h
        · exact Option.noConfusion h
    · exact Option.noConfusion h

theorem suffix_get?_shift {l1 l2 : List Char} (h : l1 <:+ l2) :
    ∃ a, ∀ i c, l1.get? i = some c → l2.get? (a + i) = some c := by
  obtain ⟨pre, rfl⟩ := h
  refine ⟨pre.length, fun i c hg => ?_⟩
  rw [List.get?_append_right (by omega)]
  rw [show pre.length + i - pre.length = i from by omega]
  exact hg

theorem jsonVal_pdict_plist_brackets {f : Nat} {cs : List Char} {d : PyDict} {r : List Char}
    (h : jsonParseVal f cs = some (.pdict d, r))
    {k : String} {xs : List PyVal} (hmem : (k, .plist xs) ∈ d) :
    ∃ i j, i < j ∧ cs.get? i = some '[' ∧ cs.get? j = some ']' := by
  cases f with
  | zero => exact Option.noConfusion h
  | succ n =>
    rw [jsonParseVal_succ] at h
    split at h
    · exact Option.noConfusion h
    · rename_i rest heq
      have hws : ∀ l : List Char, jsonSkipWs l <:+ l := fun l => List.dropWhile_suffix _
      have hsubrest : jsonSkipWs rest <:+ cs :=
        (hws rest).trans ((List.suffix_cons _ rest).trans (heq ▸ hws cs))
      cases n with
      | zero => exact Option.noConfusion h
      | succ m =>
        rw [jsonParseObj_succ] at h
        split at h
        · injection h with h2
          injection h2 with hv hr
          injection hv with hd
          rw [← hd] at hmem
          exact absurd hmem (List.not_mem_nil _)
        · cases hin : jsonParseObjItems m (jsonSkipWs rest) with
          | none => rw [hin] at h; exact Option.noConfusion h
          | some q =>
            rw [hin] at h
            simp only [Option.map_some'] at h
            injection h with h2
            injection h2 with hv hr
            injection hv with hd
            rw [← hd] at hmem
            obtain ⟨f', cs', r', hsub, hparse⟩ :=
              jsonObjItems_entries m (jsonSkipWs rest) q.1 q.2 hin k (.plist xs) hmem
            obtain ⟨i, j, hij, hgi, hgj⟩ := jsonVal_plist_brackets hparse
            obtain ⟨a, hshift⟩ := suffix_get?_shift (hsub.trans hsubrest)
            exact ⟨a + i, a + j, by omega, hshift i '[' hgi, hshift j ']' hgj⟩
    · rename_i rest heq
      obtain ⟨ys, hys⟩ := jsonParseArr_shape h
      exact PyVal.noConfusion hys
    · rename_i rest heq
      cases hin : jsonParseStrBody n rest with
      | none => rw [hin] at h; exact Option.noConfusion h
      | some q =>
        rw [hin] at h
        simp only [Option.map_some'] at h
        injection h with h2
        injection h2 with hv hr
        exact PyVal.noConfusion hv
    · rename_i rest heq
      split at h
      · injection h with h2
        injection h2 with hv hr
        exact PyVal.noConfusion hv
      · exact Option.noConfusion h
    · rename_i rest heq
      split at h
      · injection h with h2
        injection h2 with hv hr
        exact PyVal.noConfusion hv
      · exact Option.noConfusion h
    · rename_i rest heq
      split at h
      · injection h with h2
        injection h2 with hv hr
        exact PyVal.noConfusion hv
      · exact Option.noConfusion h
    · rcases jsonParseNumber_shape h with ⟨k2, hk⟩ | ⟨q2, hq⟩
      · exact PyVal.noConfusion hk
      · exact PyVal.noConfusion hq

theorem llmCleaned_pdict_no_list (text : String) (d : PyDict)
    (h : jsonLoads (llmCleaned text) = some (.pdict d)) :
    ∀ (k : String) (xs : List PyVal), ¬((k, PyVal.plist xs) ∈ d) := by
  intro k xs hmem
  unfold jsonLoads at h
  cases hp : jsonParseVal (4 * (llmCleaned text).data.length + 8) (llmCleaned text).data with
  | none => rw [hp] at h; exact Option.noConfusion h
  | some p =>
    rw [hp] at h
    obtain ⟨v, rest⟩ := p
    dsimp only at h
    split at h
    · injection h with hv
      subst hv
      obtain ⟨i, j, hij, hgi, hgj⟩ := jsonVal_pdict_plist_brackets hp hmem
      obtain ⟨p', q', hpq, hgp, hgq⟩ := llmCleaned_bracket_transfer text hij hgi hgj
      obtain ⟨st, hst, hstle⟩ := strFindChar_exists hgp
      obtain ⟨en, hen, henge, _⟩ := strRfindChar_exists hgq
      have hstbr : text.data.get? st = some '[' := strFindChar_found hst
      have hsan : sanitize_json_only text = pySlice text st (en + 1) := by
        unfold sanitize_json_only
        rw [hst, hen]
        dsimp only
        rw [if_neg (by omega)]
      have hlen : st < text.data.length := get?_lt_length hstbr
      have hhead : ∃ tl0, (pySlice text st (en + 1)).data = '[' :: tl0 := by
        have h0 : (pySlice text st (en + 1)).data.get? 0 = some '[' := by
          show ((text.data.drop st).take (en + 1 - st)).get? 0 = some '['
          rw [List.get?_take (by omega : 0 < en + 1 - st), List.get?_drop, Nat.add_zero]
          exact hstbr
        cases hd : (pySlice text st (en + 1)).data with
        | nil => rw [hd] at h0; exact Option.noConfusion h0
        | cons c0 tl0 =>
          rw [hd] at h0
          injection h0 with h02
          exact ⟨tl0, by rw [h02]⟩
      obtain ⟨tl0, htl0⟩ := hhead
      obtain ⟨tl1, htl1⟩ := pyStrip_head htl0
      have hlead : stripLeadFence (pyStrip (pySlice text st (en + 1))) =
          pyStrip (pySlice text st (en + 1)) := stripLeadFence_bracket htl1
      obtain ⟨tl2, htl2⟩ := stripTrailFence_head htl1
      have hcl : (llmCleaned text).data = '[' :: tl2 := by
        unfold llmCleaned stripFences
        rw [hsan, hlead]
        exact htl2
      rw [hcl] at hp
      rw [show (4 * ('[' :: tl2).length + 8) = (4 * ('[' :: tl2).length + 7) + 1 from rfl] at hp
      rw [show jsonParseVal ((4 * ('[' :: tl2).length + 7) + 1) ('[' :: tl2) =
        jsonParseArr (4 * ('[' :: tl2).length + 7) (jsonSkipWs tl2) from rfl] at hp
      obtain ⟨ys, hys⟩ := jsonParseArr_shape hp
      exact PyVal.noConfusion hys
    · exact Option.noConfusion h

/-- C4 amended: (1) parsing is invariant under wrapping the response in any
prefix free of the character [ and suffix free of the character ] (in
particular markdown code fences) whenever the inner text has an outermost
bracket span, because sanitize_json_only selects the same span; (2) when the
cleaned text parses to a JSON object, the result is always the one-element
list containing that object; (3) the reason is that the unwrap branch for
the key "Cotações" (the code checks "Cotações", not "quotes") is dead code:
a cleaned text that parses to an object can hold no list value at all under
any key, because a list value would put the character [ before the
character ] in the original text, sanitize_json_only would then extract
that bracket span, and the cleaned text would parse as a list instead. -/
theorem parse_llm_shape_amended :
    (∀ pre s suf : String, ∀ st en : Nat,
      (∀ d ∈ pre.data, ¬(d = '[')) → (∀ d ∈ suf.data, ¬(d = ']')) →
      strFindChar? s '[' = some st → strRfindChar? s ']' = some en → st ≤ en →
      parse_llm_to_list (pre ++ s ++ suf) = parse_llm_to_list s) ∧
    (∀ text : String, ∀ d : PyDict,
      jsonLoads (llmCleaned text) = some (.pdict d) →
      parse_llm_to_list text = Except.ok [d]) ∧
    (∀ text : String, ∀ d : PyDict,
      jsonLoads (llmCleaned text) = some (.pdict d) →
      ∀ (k : String) (xs : List PyVal), ¬(dictGet? d k = some (.plist xs))) := by
  refine ⟨?_, ?_, ?_⟩
  · intro pre s suf st en hpre hsuf hst hen hle
    unfold parse_llm_to_list
    rw [llmCleaned_concat pre s suf hpre hsuf st en hst hen hle]
  · intro text d hj
    unfold parse_llm_to_list
    rw [hj]
    dsimp only
    cases hg : dictGet? d "Cotações" with
    | none => rfl
    | some v =>
      cases v with
      | plist xs =>
        exact absurd (dictGet?_mem hg) (llmCleaned_pdict_no_list text d hj "Cotações" xs)
      | pnone => rfl
      | pbool b => rfl
      | pint n => rfl
      | pfloat q => rfl
      | pstr t => rfl
      | pdict d2 => rfl
  · intro text d hj k xs hg
    exact llmCleaned_pdict_no_list text d hj k xs (dictGet?_mem hg)

/-- Witness for parse_llm_shape_amended: a markdown-fenced JSON array parses
identically to the unfenced array; the bare object text with key "a" and
value 1 parses to the one-element list containing that object; and that
parsed object indeed holds no list under "Cotações". -/
theorem parse_llm_shape_amended_witness :
    (parse_llm_to_list "```json\n[\x7b\"Hotel\": \"X\"\x7d]\n```" =
      parse_llm_to_list "[\x7b\"Hotel\": \"X\"\x7d]") ∧
    parse_llm_to_list "\x7b\"a\": 1\x7d" = Except.ok [[("a", PyVal.pint 1)]] ∧
    ¬(dictGet? [("a", PyVal.pint 1)] "Cotações" = some (.plist [])) :=
  ⟨parse_llm_shape_amended.1 "```json\n" "[\x7b\"Hotel\": \"X\"\x7d]" "\n```" 0 15
    (by decide) (by decide) rfl rfl (by decide),
   parse_llm_shape_amended.2.1 "\x7b\"a\": 1\x7d" [("a", PyVal.pint 1)] rfl,
   parse_llm_shape_amended.2.2 "\x7b\"a\": 1\x7d" [("a", PyVal.pint 1)] rfl "Cotações" []⟩
